import Mathlib

/-!
Verification of the noble-post-quantum ML-DSA / threshold-ML-DSA implementation.

This file gives a shallow embedding, in Lean 4, of the arithmetic core of the
repository (`src/ml-dsa.ts`, `src/ml-dsa-primitives.ts`, `src/threshold-ml-dsa.ts`)
and proves properties of the embedded definitions.

Conventions:
* Byte buffers are `List ℕ` (each entry a byte value `< 256`).
* `Int32Array` polynomial buffers are `List ℤ`.
* SHAKE128/SHAKE256 and the system RNG are external collaborators of the
  repository; they are modelled as abstract function parameters (deterministic
  streams of bytes).  All uses of a hash in the code become applications of the
  corresponding parameter, so equal inputs give equal outputs.
* JavaScript `%` on numbers together with the repository's `mod` helper is
  embedded with `Int.emod` (written `%`), and `Math.floor` division by a
  positive divisor is `Int.ediv` (written `/`), which agree with the JS
  behaviour on the value ranges that occur.
* The helpers from `_crystals.ts` and `utils.ts` are not part of the snapshot;
  where they are needed they are modelled from the specification and marked
  `Modelled from the spec:` in their doc comment.
-/

namespace NPQ

/-- The prime modulus `Q = 2^23 - 2^13 + 1` (from `ml-dsa-primitives.ts`). -/
def Q : ℤ := 8380417

/-- Ring degree `N = 256` (from `ml-dsa-primitives.ts`). -/
def Nr : ℕ := 256

/-- Dropped bits `D = 13` (from `ml-dsa-primitives.ts`). -/
def Dbits : ℕ := 13

/-- `GAMMA2_1 = ⌊(Q-1)/88⌋` (from `ml-dsa-primitives.ts`). -/
def GAMMA2_1 : ℤ := (Q - 1) / 88

/-- `GAMMA2_2 = ⌊(Q-1)/32⌋` (from `ml-dsa-primitives.ts`). -/
def GAMMA2_2 : ℤ := (Q - 1) / 32

/-- Modelled from the spec: `mod(a, m)` from the missing `_crystals.ts`, which
§4.1 describes as returning `a mod m` in `[0, m)`.  `Int.emod` has exactly this
behaviour for positive `m`. -/
def mod (a : ℤ) (m : ℤ := Q) : ℤ := a % m

/-- Modelled from the spec: `smod(a, m)` from the missing `_crystals.ts`, which
§4.1 describes as the centered representative in `(-m/2, m/2]`. -/
def smod (a : ℤ) (m : ℤ := Q) : ℤ :=
  let r := mod a m
  if r > m / 2 then r - m else r

/-- `decompose` from `ml-dsa-primitives.ts` (FIPS 204 Algorithm 17 as the
repository implements it): split a coefficient into high/low parts relative to
`2·γ₂`, with the `Q - 1` wrap-around case returning `(0, r0 - 1)`.
Returned pair is `(r1, r0)`. -/
def decompose (GAMMA2 : ℤ) (r : ℤ) : ℤ × ℤ :=
  let rPlus := mod r
  let r0 := smod rPlus (2 * GAMMA2)
  if rPlus - r0 = Q - 1 then (0, r0 - 1)
  else ((rPlus - r0) / (2 * GAMMA2), r0)

/-- `HighBits` from `ml-dsa-primitives.ts`. -/
def HighBits (GAMMA2 : ℤ) (r : ℤ) : ℤ := (decompose GAMMA2 r).1

/-- `LowBits` from `ml-dsa-primitives.ts`. -/
def LowBits (GAMMA2 : ℤ) (r : ℤ) : ℤ := (decompose GAMMA2 r).2

/-- `MakeHint` from `ml-dsa-primitives.ts`: hint bit from `(z, r)`. -/
def MakeHint (GAMMA2 : ℤ) (z r : ℤ) : ℤ :=
  if z ≤ GAMMA2 ∨ z > Q - GAMMA2 ∨ (z = Q - GAMMA2 ∧ r = 0) then 0 else 1

/-- `UseHint` from `ml-dsa-primitives.ts`: recover adjusted high bits. -/
def UseHint (GAMMA2 : ℤ) (h r : ℤ) : ℤ :=
  let m := (Q - 1) / (2 * GAMMA2)
  let p := decompose GAMMA2 r
  if h = 1 then (if p.2 > 0 then mod (p.1 + 1) m else mod (p.1 - 1) m) else p.1

/-- `Power2Round` from `ml-dsa-primitives.ts`: split relative to `2^D`. -/
def Power2Round (r : ℤ) : ℤ × ℤ :=
  let rPlus := mod r
  let r0 := smod rPlus (2 ^ Dbits)
  ((rPlus - r0) / 2 ^ Dbits, r0)

-- ==================== Threshold parameter tables ====================

/-- `ThresholdParams` record from `threshold-ml-dsa.ts`.  The `nu` field is the
float `3.0` in the source; it is exact, so it is embedded as a rational. -/
structure ThresholdParams where
  T : ℕ
  N : ℕ
  K_iter : ℕ
  nu : ℚ
  r : ℕ
  rPrime : ℕ
deriving DecidableEq

/-- `PARAMS_44` from `threshold-ml-dsa.ts`: `[K_iter, r, rPrime]` entries
indexed by `N`, then by `T - 2`.  JS `Record` lookup of a missing key is
embedded as `none`. -/
def PARAMS_44 (n : ℕ) : Option (List (ℕ × ℕ × ℕ)) :=
  if n = 2 then some [(2, 252778, 252833)]
  else if n = 3 then some [(3, 310060, 310138), (4, 246490, 246546)]
  else if n = 4 then some [(3, 305919, 305997), (7, 279235, 279314), (8, 243463, 243519)]
  else if n = 5 then some [(3, 285363, 285459), (14, 282800, 282912), (30, 259427, 259526),
    (16, 239924, 239981)]
  else if n = 6 then some [(4, 300265, 300362), (19, 277014, 277139), (74, 268705, 268831),
    (100, 250590, 250686), (37, 219245, 219301)]
  else none

/-- `PARAMS_65` from `threshold-ml-dsa.ts`. -/
def PARAMS_65 (n : ℕ) : Option (List (ℕ × ℕ × ℕ)) :=
  if n = 2 then some [(2, 344000, 344080)]
  else if n = 3 then some [(3, 421700, 421810), (4, 335200, 335290)]
  else if n = 4 then some [(3, 416000, 416110), (7, 379600, 379710), (8, 331000, 331090)]
  else if n = 5 then some [(3, 388000, 388130), (14, 384600, 384750), (30, 352800, 352940),
    (16, 326200, 326280)]
  else if n = 6 then some [(4, 408300, 408430), (19, 376700, 376870), (74, 365400, 365570),
    (100, 340700, 340830), (37, 298000, 298080)]
  else none

/-- `PARAMS_87` from `threshold-ml-dsa.ts`. -/
def PARAMS_87 (n : ℕ) : Option (List (ℕ × ℕ × ℕ)) :=
  if n = 2 then some [(2, 442000, 442100)]
  else if n = 3 then some [(3, 541600, 541740), (4, 430600, 430710)]
  else if n = 4 then some [(3, 534200, 534340), (7, 487500, 487640), (8, 425100, 425210)]
  else if n = 5 then some [(3, 498200, 498370), (14, 494200, 494400), (30, 453300, 453470),
    (16, 419100, 419210)]
  else if n = 6 then some [(4, 524300, 524470), (19, 483600, 483820), (74, 469200, 469420),
    (100, 437400, 437570), (37, 382800, 382910)]
  else none

/-- `ALL_PARAMS` from `threshold-ml-dsa.ts`: level → table. -/
def ALL_PARAMS (level : ℕ) : Option (ℕ → Option (List (ℕ × ℕ × ℕ))) :=
  if level = 44 then some PARAMS_44
  else if level = 65 then some PARAMS_65
  else if level = 87 then some PARAMS_87
  else none

/-- `normalizeSecurityLevel` from `threshold-ml-dsa.ts`. -/
def normalizeSecurityLevel (level : ℕ) : ℕ :=
  if level = 128 then 44
  else if level = 192 then 65
  else if level = 256 then 87
  else level

/-- `ThresholdMLDSA.MAX_PARTIES` from `threshold-ml-dsa.ts`. -/
def MAX_PARTIES : ℕ := 6

/-- Body of `ThresholdMLDSA.getParams` after the level table has been
resolved (the `(T, N)` validation and entry lookup from `threshold-ml-dsa.ts`,
with thrown exceptions embedded as `Except.error` of the thrown message). -/
def getParamsWithTable (T N_ : ℕ) (table : ℕ → Option (List (ℕ × ℕ × ℕ))) :
    Except String ThresholdParams :=
  if T < 2 then .error "Threshold T must be >= 2"
  else if N_ < T then .error "Threshold T must be <= N"
  else if MAX_PARTIES < N_ then .error ("N must be <= " ++ toString MAX_PARTIES)
  else if N_ < 2 then .error "N must be >= 2"
  else
    match table N_ with
    | none => .error ("No parameters for N=" ++ toString N_)
    | some entries =>
      match entries.get? (T - 2) with
      | none => .error ("No parameters for T=" ++ toString T ++ ", N=" ++ toString N_)
      | some (k, r, rp) => .ok { T := T, N := N_, K_iter := k, nu := 3, r := r, rPrime := rp }

/-- `ThresholdMLDSA.getParams` from `threshold-ml-dsa.ts`. -/
def getParams (T N_ securityLevel : ℕ) : Except String ThresholdParams :=
  match ALL_PARAMS (normalizeSecurityLevel securityLevel) with
  | none => .error ("Unsupported security level: " ++ toString securityLevel)
  | some table => getParamsWithTable T N_ table

/-- Boolean check used to decide the positive part of the `getParams` claim on
a concrete input: the call succeeds and the returned record satisfies
`nu = 3`, `2 ≤ K_iter ≤ 100` and `r < rPrime`. -/
def getParamsOk (T N_ lvl : ℕ) : Bool :=
  match getParams T N_ lvl with
  | .ok p => decide (p.nu = 3) && decide (2 ≤ p.K_iter) && decide (p.K_iter ≤ 100)
      && decide (p.r < p.rPrime)
  | .error _ => false

-- ==================== Hint coder ====================

/-- Inner index loop of `hintCoder.decode` from `ml-dsa-primitives.ts`:
`for (let j = k; j < stop; j++) { if (j > k && buf[j] <= buf[j-1]) return false;
hi[buf[j]] = 1; }`.  `steps` counts the remaining iterations (`stop - j`).
Out-of-range `Int32Array` writes are ignored, which `List.set` matches. -/
def hintDecodeIdxLoop (buf : List ℕ) (k : ℕ) : List ℤ → ℕ → ℕ → Option (List ℤ)
  | hi, _, 0 => some hi
  | hi, j, steps + 1 =>
    if k < j ∧ buf.getD j 0 ≤ buf.getD (j - 1) 0 then none
    else hintDecodeIdxLoop buf k (hi.set (buf.getD j 0) 1) (j + 1) steps

/-- Row loop of `hintCoder.decode` from `ml-dsa-primitives.ts`: processes
`rows` remaining rows starting at row index `i` with running cursor `k`,
accumulating decoded polynomials in reverse. -/
def hintDecodeRowsLoop (OMEGA : ℕ) (buf : List ℕ) :
    ℕ → ℕ → ℕ → List (List ℤ) → Option (ℕ × List (List ℤ))
  | 0, _, k, acc => some (k, acc.reverse)
  | rows + 1, i, k, acc =>
    let cursor := buf.getD (OMEGA + i) 0
    if cursor < k ∨ OMEGA < cursor then none
    else
      match hintDecodeIdxLoop buf k (List.replicate 256 0) k (cursor - k) with
      | none => none
      | some hi => hintDecodeRowsLoop OMEGA buf rows (i + 1) cursor (hi :: acc)

/-- `hintCoder.decode` from `ml-dsa-primitives.ts`: decode an `(ω + K)`-byte
buffer into `K` hint polynomials, or `none` (the source's `false`) on any
violation. -/
def hintDecode (OMEGA K : ℕ) (buf : List ℕ) : Option (List (List ℤ)) :=
  match hintDecodeRowsLoop OMEGA buf K 0 0 [] with
  | none => none
  | some (k, h) =>
    if (List.range' k (OMEGA - k)).all (fun j => buf.getD j 0 == 0) then some h else none

/-- One row of `hintCoder.encode` from `ml-dsa-primitives.ts`: write the
indices of nonzero coefficients of `hi` at consecutive positions starting at
`k` (`res[k++] = j`), returning the updated buffer and cursor.  `Uint8Array`
writes truncate modulo 256. -/
def hintEncodeRow (hi : List ℤ) (res : List ℕ) (k : ℕ) : List ℕ × ℕ :=
  (List.range 256).foldl
    (fun (st : List ℕ × ℕ) j =>
      if hi.getD j 0 ≠ 0 then (st.1.set st.2 (j % 256), st.2 + 1) else st)
    (res, k)

/-- `hintCoder.encode` from `ml-dsa-primitives.ts`: pack `K` hint polynomials
into an `(ω + K)`-byte buffer (index segment, then running cursors). -/
def hintEncode (OMEGA K : ℕ) (h : List (List ℤ)) : List ℕ :=
  (h.enum.foldl
    (fun (st : List ℕ × ℕ) p =>
      let st' := hintEncodeRow p.2 st.1 st.2
      (st'.1.set (OMEGA + p.1) (st'.2 % 256), st'.2))
    (List.replicate (OMEGA + K) 0, 0)).1

/-- Cursor byte for row `i`: `buf[ω + i]`. -/
def hintCursor (OMEGA : ℕ) (buf : List ℕ) (i : ℕ) : ℕ := buf.getD (OMEGA + i) 0

/-- Cursor preceding row `i` (`0` before the first row). -/
def hintPrevCursor (OMEGA : ℕ) (buf : List ℕ) : ℕ → ℕ
  | 0 => 0
  | i + 1 => hintCursor OMEGA buf i

/-- Validity of row `i` of a hint buffer: the cursor does not decrease, does
not exceed `ω`, and the indices listed in the row's region are strictly
increasing. -/
def hintRowOk (OMEGA : ℕ) (buf : List ℕ) (i : ℕ) : Prop :=
  hintPrevCursor OMEGA buf i ≤ hintCursor OMEGA buf i
  ∧ hintCursor OMEGA buf i ≤ OMEGA
  ∧ ∀ j, hintPrevCursor OMEGA buf i < j → j < hintCursor OMEGA buf i →
      ¬(buf.getD j 0 ≤ buf.getD (j - 1) 0)

/-- The rejection condition of the hint-decoding claim, written as in the
specification: some cursor decreases or exceeds `ω`, or the listed indices
within some row are non-increasing, or some byte after the last cursor's index
region is nonzero. -/
def hintViolation (OMEGA K : ℕ) (buf : List ℕ) : Prop :=
  (∃ i < K, hintCursor OMEGA buf i < hintPrevCursor OMEGA buf i
      ∨ OMEGA < hintCursor OMEGA buf i)
  ∨ (∃ i < K, ∃ j, hintPrevCursor OMEGA buf i < j ∧ j < hintCursor OMEGA buf i
      ∧ buf.getD j 0 ≤ buf.getD (j - 1) 0)
  ∨ (∃ j, hintPrevCursor OMEGA buf K ≤ j ∧ j < OMEGA ∧ buf.getD j 0 ≠ 0)

-- ==================== SampleInBall ====================

/-- Inner rejection read of `SampleInBall` from `ml-dsa-primitives.ts`: read
bytes `stream pos, stream (pos+1), …` until one is `≤ i`, returning the byte
and the next read position.  The SHAKE256 output of the seed is modelled as
the abstract byte stream `stream`; `fuel` bounds the number of reads. -/
def sibFind (stream : ℕ → ℕ) (i : ℕ) : ℕ → ℕ → Option (ℕ × ℕ)
  | _, 0 => none
  | pos, fuel + 1 =>
    let b := stream pos % 256
    if b ≤ i then some (b, pos + 1) else sibFind stream i (pos + 1) fuel

/-- Main loop of `SampleInBall` from `ml-dsa-primitives.ts`: `steps` remaining
iterations of `for (let i = N - TAU; i < N; i++)`, with the swap
`pre[i] = pre[b]; pre[b] = ±1` and the running sign-mask cursor
`(maskPos, maskBit)`.  Out-of-range mask reads give `0`, as in JS. -/
def sibLoop (stream : ℕ → ℕ) (fuel : ℕ) :
    ℕ → ℕ → ℕ → ℕ → ℕ → List ℤ → Option (List ℤ)
  | 0, _, _, _, _, pre => some pre
  | steps + 1, pos, maskPos, maskBit, i, pre =>
    match sibFind stream i pos fuel with
    | none => none
    | some (b, pos') =>
      let mb := if maskPos < 8 then stream maskPos % 256 else 0
      let sign : ℤ := 1 - 2 * (((mb >>> maskBit) % 2 : ℕ) : ℤ)
      let pre' := (pre.set i (pre.getD b 0)).set b sign
      if maskBit + 1 ≥ 8 then sibLoop stream fuel steps pos' (maskPos + 1) 0 (i + 1) pre'
      else sibLoop stream fuel steps pos' maskPos (maskBit + 1) (i + 1) pre'

/-- `SampleInBall` from `ml-dsa-primitives.ts` (FIPS 204 Algorithm 16 as the
repository implements it): the first 8 stream bytes are the sign mask, index
candidates are read from byte 8 onwards. -/
def SampleInBall (TAU : ℕ) (stream : ℕ → ℕ) (fuel : ℕ) : Option (List ℤ) :=
  sibLoop stream fuel TAU 8 0 0 (256 - TAU) (List.replicate 256 0)

-- ==================== 23-bit commitment packing ====================

/-- `POLY_Q_SIZE = N·23/8 = 736` from `threshold-ml-dsa.ts`. -/
def POLY_Q_SIZE : ℕ := 736

/-- The modulus `Q` as a natural number. -/
def Qn : ℕ := 8380417

/-- JS `x & (2^d - 1)` on a (possibly negative) 32-bit integer: two's
complement truncation to the low `d` bits (`d ≤ 31`). -/
def bitMask (d : ℕ) (x : ℤ) : ℕ := (x % (2 : ℤ) ^ d).toNat

/-- The byte-emitting inner `while (j >= 8)` loop of `polyPackW`: emit `q`
bytes from the accumulator `v` (low byte first), returning the bytes and the
shifted-out accumulator. -/
def emitBytes : ℕ → ℕ → List ℕ × ℕ
  | 0, v => ([], v)
  | q + 1, v =>
    let r := emitBytes q (v / 256)
    ((v % 256) :: r.1, r.2)

/-- `polyPackW` from `threshold-ml-dsa.ts`: 23-bit little-endian packing of a
polynomial into bytes.  State `(v, j)` is the bit accumulator; per
coefficient the source does `v |= (p[i] & 0x7fffff) << j; j += 23` and then
emits whole bytes while `j ≥ 8` (that is, `(j+23)/8` bytes, leaving
`(j+23) % 8` pending bits).  The source writes into a caller-provided buffer
at an offset; the embedding returns the written bytes. -/
def polyPackW : List ℤ → ℕ → ℕ → List ℕ
  | [], _, _ => []
  | c :: cs, v, j =>
    let v' := v ||| (bitMask 23 c <<< j)
    let out := emitBytes ((j + 23) / 8) v'
    out.1 ++ polyPackW cs out.2 ((j + 23) % 8)

/-- The byte-absorbing inner `while (j < d)` loop of `polyUnpackW`
(`v += (buf[k] & 0xff) << j; j += 8; k++`); reading past the end of the
buffer contributes `0`, as JS `undefined` does under `<<`. -/
def unpackAbsorb (d : ℕ) : List ℕ → ℕ → ℕ → ℕ × ℕ × List ℕ
  | bs, v, j =>
    if _h : j < d then
      match bs with
      | [] => unpackAbsorb d [] v (j + 8)
      | b :: rest => unpackAbsorb d rest (v + (b % 256) <<< j) (j + 8)
    else (v, j, bs)
termination_by _bs _v j => d - j

/-- Coefficient loop of `polyUnpackW` from `threshold-ml-dsa.ts`: absorb to
at least 23 bits, take the low 23 bits as the coefficient, reject it if
`≥ Q`, and continue with the shifted accumulator. -/
def polyUnpackWGo : ℕ → List ℕ → ℕ → ℕ → Except String (List ℤ)
  | 0, _, _, _ => .ok []
  | n + 1, bs, v, j =>
    let a := unpackAbsorb 23 bs v j
    let coeff := a.1 % 2 ^ 23
    if Qn ≤ coeff then
      .error ("Invalid polynomial coefficient: " ++ toString coeff ++ " >= Q")
    else
      match polyUnpackWGo n a.2.2 (a.1 >>> 23) (a.2.1 - 23) with
      | .error e => .error e
      | .ok cs => .ok ((coeff : ℤ) :: cs)

/-- `polyUnpackW` from `threshold-ml-dsa.ts` on a 736-byte slice. -/
def polyUnpackW (bs : List ℕ) : Except String (List ℤ) :=
  polyUnpackWGo 256 bs 0 0

/-- `packPolys` from `threshold-ml-dsa.ts`: pack `K_iter` rows of `dim`
polynomials at 23 bits per coefficient; polynomial `(iter, j)` occupies the
736-byte block at index `iter·dim + j`. -/
def packPolys (polys : List (List (List ℤ))) (dim K_iter : ℕ) : List ℕ :=
  ((List.range K_iter).map (fun iter =>
    ((List.range dim).map (fun j =>
      polyPackW ((polys.getD iter []).getD j []) 0 0)).flatten)).flatten

/-- The 736-byte block of `buf` at block index `idx`. -/
def sliceAt (buf : List ℕ) (idx : ℕ) : List ℕ :=
  (buf.drop (idx * POLY_Q_SIZE)).take POLY_Q_SIZE

/-- Inner (`j < dim`) loop of `unpackPolys` from `threshold-ml-dsa.ts`:
unpack `d` consecutive 736-byte blocks starting at block index `idx`. -/
def unpackRow (buf : List ℕ) : ℕ → ℕ → Except String (List (List ℤ))
  | _, 0 => .ok []
  | idx, d + 1 =>
    match polyUnpackW (sliceAt buf idx) with
    | .error e => .error e
    | .ok p =>
      match unpackRow buf (idx + 1) d with
      | .error e => .error e
      | .ok ps => .ok (p :: ps)

/-- Outer (`iter < K_iter`) loop of `unpackPolys` from `threshold-ml-dsa.ts`. -/
def unpackIters (buf : List ℕ) (dim : ℕ) : ℕ → ℕ → Except String (List (List (List ℤ)))
  | _, 0 => .ok []
  | idx, it + 1 =>
    match unpackRow buf idx dim with
    | .error e => .error e
    | .ok row =>
      match unpackIters buf dim (idx + dim) it with
      | .error e => .error e
      | .ok rows => .ok (row :: rows)

/-- `unpackPolys` from `threshold-ml-dsa.ts`: validate the buffer length,
then unpack `K_iter × dim` polynomials. -/
def unpackPolys (buf : List ℕ) (dim K_iter : ℕ) : Except String (List (List (List ℤ))) :=
  if buf.length ≠ K_iter * dim * POLY_Q_SIZE then
    .error ("Invalid buffer length: expected " ++ toString (K_iter * dim * POLY_Q_SIZE)
      ++ ", got " ++ toString buf.length)
  else unpackIters buf dim 0 K_iter

/-- Little-endian byte expansion of a natural number to `n` bytes. -/
def bytesLE : ℕ → ℕ → List ℕ
  | 0, _ => []
  | n + 1, x => (x % 256) :: bytesLE n (x / 256)

/-- Value of a little-endian byte list (each byte reduced mod 256). -/
def bytesVal : List ℕ → ℕ
  | [] => 0
  | b :: bs => b % 256 + 256 * bytesVal bs

/-- The natural number whose base-`2^23` digits are the masked coefficients. -/
def natOfCoeffs : List ℤ → ℕ
  | [] => 0
  | c :: cs => bitMask 23 c + 2 ^ 23 * natOfCoeffs cs

/-- `#hashCommitment` from `threshold-ml-dsa.ts`: the commitment hash is
`SHAKE256(tr ∥ byte(partyId) ∥ commitment, 32)`; `new Uint8Array([partyId])`
truncates the party id to one byte.  The SHAKE256 digest is the abstract
function `H` from bytes to bytes. -/
def hashCommitment (H : List ℕ → List ℕ) (tr : List ℕ) (partyId : ℕ)
    (commitment : List ℕ) : List ℕ :=
  H (tr ++ [partyId % 256] ++ commitment)

/-- The constant-time comparison loop of `round3` from `threshold-ml-dsa.ts`:
`let diff = 0; for (let j = 0; j < expected.length; j++) diff |= expected[j] ^ hashes[i][j]`.
An out-of-range read of the stored hash contributes `0`, as JS coerces
`undefined` to `0` under `^`. -/
def xorFold (expected hrow : List ℕ) : ℕ :=
  (List.range expected.length).foldl
    (fun acc j => acc ||| (expected.getD j 0 ^^^ hrow.getD j 0)) 0

/-- The commitment-verification loop of `round3` from `threshold-ml-dsa.ts`:
for each received commitment, recompute the hash for the stored party id and
compare it to the hash stored in round 2; throw naming the offending party on
the first mismatch. -/
def round3CheckLoop (H : List ℕ → List ℕ) (tr : List ℕ) (ids : List ℕ)
    (hashes : List (List ℕ)) : List (List ℕ) → ℕ → Except String Unit
  | [], _ => .ok ()
  | c :: cs, i =>
    let expected := hashCommitment H tr (ids.getD i 0) c
    if xorFold expected (hashes.getD i []) ≠ 0 then
      .error ("Commitment hash mismatch for party " ++ toString (ids.getD i 0))
    else round3CheckLoop H tr ids hashes cs (i + 1)

/-- `round3` from `threshold-ml-dsa.ts`: check the commitment count against
the active-party list stored in round 2, verify every commitment hash, then
compute and pack this party's partial response.  The response pipeline after
the checks (`unpackPolys`/`#aggregateCommitments`/`#computeResponses`/
`packPolys`) does not affect the checks and is abstracted as `respond`. -/
def round3 (H : List ℕ → List ℕ) (tr : List ℕ) (commitments : List (List ℕ))
    (ids : List ℕ) (hashes : List (List ℕ))
    (respond : List (List ℕ) → List ℕ) : Except String (List ℕ) :=
  if commitments.length ≠ ids.length then
    .error ("Expected " ++ toString ids.length ++ " commitments, got "
      ++ toString commitments.length)
  else
    match round3CheckLoop H tr ids hashes commitments 0 with
    | .error e => .error e
    | .ok _ => .ok (respond commitments)

/-- Skeleton of the baseline rejection-sampling loop
`main_loop: for (let kappa = 0; ; )` of `internal.sign` in `ml-dsa.ts`
(also `part_002`): each iteration reads `L` mask polynomials at counter
`kappa` (advancing it by `L`) and either returns the encoded signature or
jumps back to `main_loop`; the loop header has no bound and no exit besides
the successful `return`.  The iteration body (mask expansion, `w`,
`cTilde`, `SampleInBall`, the three `polyChknorm` rejections and the
`cnt > OMEGA` rejection) is abstracted as `attempt`, mapping the
iteration's starting counter to `some` signature on acceptance and `none`
on rejection; `fuel` only bounds how many iterations we observe, and
exhausting it yields `none` — the source loop itself never terminates on
its own. -/
def signMainLoop {σ : Type} (attempt : ℕ → Option σ) (L : ℕ) : ℕ → ℕ → Option σ
  | 0, _ => none
  | f + 1, kappa =>
    match attempt kappa with
    | some s => some s
    | none => signMainLoop attempt L f (kappa + L)

/-- The attempt loop of `ThresholdMLDSA.sign` from `threshold-ml-dsa.ts`:
`for (let attempt = 0; attempt < 500; attempt++)` runs one full protocol
round-trip (commitments, responses, `#combine`; abstracted as
`attemptSig`, `some` on success) and returns the signature on success; when
the loop ends it throws.  The first argument of the recursion is the number
of remaining attempts. -/
def thresholdSignLoop {σ : Type} (attemptSig : ℕ → Option σ) : ℕ → ℕ → Except String σ
  | 0, _ => .error "Failed to produce valid threshold signature after 500 attempts"
  | r + 1, a =>
    match attemptSig a with
    | some s => .ok s
    | none => thresholdSignLoop attemptSig r (a + 1)

/-- `ThresholdMLDSA.sign`'s attempt loop entered at `attempt = 0` with the
500-attempt budget of `threshold-ml-dsa.ts`. -/
def thresholdSign {σ : Type} (attemptSig : ℕ → Option σ) : Except String σ :=
  thresholdSignLoop attemptSig 500 0

/-- Buffer identities for the write-effect view of `internal.sign` in
`ml-dsa.ts`: `sk` is the caller's `secretKey` byte array together with its
subarray views `rho`, `_K`, `tr` (the source notes
`rho, _K, tr is subarray of secretKey, cannot clean`); `fresh n` is the
`n`-th buffer allocated inside the call. -/
inductive Buf
  | sk
  | fresh (n : ℕ)
deriving DecidableEq

/-- A heap of byte/word buffers updated by a list of writes
`(target, new contents)`, first write first. -/
def execWrites (heap : Buf → List ℤ) : List (Buf × List ℤ) → Buf → List ℤ
  | [] => heap
  | w :: ws => execWrites (fun x => if x = w.1 then w.2 else heap x) ws

/-- Modelled from the spec: the write trace of `internal.sign` from
`ml-dsa.ts` (lines 210–295).  Every mutating operation of the call targets
a buffer allocated inside the call, never `secretKey`: ids 0–2 are the
`s1`/`s2`/`t0` polynomial vectors freshly decoded by `secretCoder.decode`
(the byte-to-`Int32Array` coders of the missing `utils.ts` allocate their
outputs per spec section 4.4, while `rho`/`_K`/`tr` are read-only subarray
views), 3 the matrix `A` built by `RejNTTPoly`, 4 the `xof` state, 5 `mu`,
6 `rnd`, 7 `rhoprime`, 8 the `x256` stream state, 9–18 the loop buffers
`y`, `z`, `w`, `w1`, `cTilde`, `cHat`, `cs1`, `r0`, `ct0`, `h`, and 19 the
encoded result `res`; the trailing writes are `cleanBytes(cTilde, cs1, h,
cHat, w1, w, z, y, rhoprime, mu, s1, s2, t0, ...A)` zero-filling those same
buffers.  The written values are abstract (`vals`); the in-place `NTT`
and `polyAdd` updates are further writes to ids 0–2 and 9–18, which the
trace covers by writing each of those ids. -/
def signTrace (vals : ℕ → List ℤ) : List (Buf × List ℤ) :=
  ((List.range 20).map (fun i => (Buf.fresh i, vals i))) ++
  ([13, 15, 18, 14, 12, 11, 10, 9, 7, 5, 0, 1, 2, 3].map (fun i => (Buf.fresh i, [])))

/-- Control flow of `internal.verify` from `ml-dsa.ts` (lines 297–342).
The call first runs `publicCoder.decode(publicKey)`; the coder (the missing
`utils.ts` `splitCoder`, modelled from the spec: coders have a fixed
`bytesLen`, and spec section 7 lists a wrong public-key length as fatal)
throws when `publicKey.length` differs from `publicCoder.bytesLen`.  Then:
wrong `sig.length` returns `false`; `sigCoder.decode` runs `hintCoder.decode`
on the trailing `ω + K` bytes and `h === false` returns `false`; the
first `polyChknorm` loop over `z` returns `false`; the per-row hint sums
over `ω` return `false`; the second `polyChknorm` loop returns `false`;
otherwise the result is `equalBytes(cTilde, c2)`.  The decoded `z` vector,
the two `polyChknorm` loops and the final byte comparison are pure and
throw-free, and are abstracted as `z`, `chk1`, `chk2` and `eqB`. -/
def verifyFlow (pkBytesLen sigBytesLen cTildeZBytes OMEGA K : ℕ)
    (publicKey sig : List ℕ) (z : List (List ℤ))
    (chk1 chk2 : List (List ℤ) → Bool) (eqB : Bool) : Except String Bool :=
  if publicKey.length ≠ pkBytesLen then
    .error ("publicKey: wrong length " ++ toString publicKey.length)
  else if sig.length ≠ sigBytesLen then .ok false
  else
    match hintDecode OMEGA K (sig.drop cTildeZBytes) with
    | none => .ok false
    | some h =>
      if chk1 z then .ok false
      else if h.any (fun t => (OMEGA : ℤ) < t.foldl (fun acc i => acc + i) 0) then .ok false
      else if chk2 z then .ok false
      else .ok eqB

-- ==================== ML-DSA algebraic core (C1) ====================

instance : Fact (Nat.Prime Qn) := ⟨by norm_num [Qn]⟩

instance : NeZero Qn := ⟨by norm_num [Qn]⟩

/-- 8-bit reversal of an index, LSB first (the `brvBits: 8` bit-reversed
twiddle indexing of the NTT). -/
def brv (i : ℕ) : ℕ :=
  (List.range 8).foldl (fun acc b => 2 * acc + i / 2 ^ b % 2) 0

/-- `ROOT_OF_UNITY = 1753` as an element of `ZMod Q`
(from `ml-dsa-primitives.ts`). -/
def zetaQ : ZMod Qn := 1753

/-- `F = 256⁻¹ mod Q = 8347681` (from `ml-dsa-primitives.ts`). -/
def FQ : ZMod Qn := 8347681

/-- A polynomial of the ring `Z_q[x]/(x^256+1)` by its 256 coefficients.
The implementation stores coefficients as `Int32Array` entries normalized
into `[0, Q)` by `mod`; the embedding works with the residues in `ZMod Q`
and recovers the stored representative through `ZMod.val`. -/
abbrev PolyR : Type := Fin 256 → ZMod Qn

/-- `MultiplyNTTs` from `ml-dsa-primitives.ts`: pointwise product mod `Q`. -/
def pMul (a b : PolyR) : PolyR := fun c => a c * b c

/-- An integer coefficient vector as residues mod `Q` (the effect of the
implementation's `mod` normalization). -/
def castZ (p : Fin 256 → ℤ) : PolyR := fun c => ((p c : ℤ) : ZMod Qn)

/-- The stored `Int32Array` representative of a residue polynomial:
`mod`-normalized values in `[0, Q)`. -/
def pVal (p : PolyR) (c : Fin 256) : ℤ := ((p c).val : ℤ)

/-- Modelled from the spec: the forward NTT of the missing `_crystals.ts`
(`genCrystals({N: 256, Q, F, ROOT_OF_UNITY: 1753, isKyber: false,
brvBits: 8})`), which §4.1 describes as the 256-point negacyclic transform
with 8-bit bit-reversed twiddles derived from `ROOT_OF_UNITY`: component
`i` evaluates the polynomial at `ζ^(2·brv(i)+1)`. -/
def nttMat (p : PolyR) : PolyR := fun i =>
  ∑ j : Fin 256, zetaQ ^ ((2 * brv i.val + 1) * j.val) * p j

/-- Modelled from the spec: the inverse NTT of the missing `_crystals.ts`,
which §4.1 describes as the inverse transform scaled by `F = 256⁻¹ mod Q`;
its output is normalized mod `Q`. -/
def inttMat (v : PolyR) : PolyR := fun j =>
  FQ * ∑ i : Fin 256, zetaQ ^ (-(((2 * brv i.val + 1) * j.val : ℕ) : ℤ)) * v i

/-- The negacyclic (ring) product of two coefficient vectors over `ℤ`:
coefficient `k` collects `a i · b j` over `i + j = k`, minus the wrapped
products over `i + j = k + 256` (`x^256 = −1`).  Written as a single sum
over `i` with the matching `j` in each branch. -/
def intNcMul (a b : Fin 256 → ℤ) (k : Fin 256) : ℤ :=
  ∑ i : Fin 256,
    a i * (if h : (i : ℕ) ≤ (k : ℕ) then b ⟨(k : ℕ) - i, by omega⟩
      else -b ⟨(k : ℕ) + 256 - i, by omega⟩)

/-- `polyChknorm` from `ml-dsa-primitives.ts` on a residue polynomial:
true iff some stored coefficient has `|smod(p[i])| ≥ B`. -/
def chknormR (p : PolyR) (B : ℤ) : Bool :=
  decide (∃ i : Fin 256, B ≤ |smod (pVal p i)|)

/-- `polyChknorm` on an integer coefficient vector (used on the `LowBits`
outputs, which the source keeps as signed values). -/
def chknormZ (p : Fin 256 → ℤ) (B : ℤ) : Bool :=
  decide (∃ i : Fin 256, B ≤ |smod (p i)|)

/-- The structured content of an ML-DSA signature `σ = (c̃, z, h)`: the
byte serialization through `sigCoder` (built by the missing `utils.ts`
`splitCoder` from the `ZCoder` and hint coders, which round-trip on the
checked ranges) is modelled as the identity on this record. -/
structure SigS (K L : ℕ) where
  cTilde : List ℕ
  z : Fin L → PolyR
  h : Fin K → Fin 256 → ℤ

/-- One iteration of the `internal.sign` rejection loop from `ml-dsa.ts`,
over the structured data: `Ahat` is the NTT-domain matrix expanded from
`ρ` by `RejNTTPoly` (abstract, shared with keygen and verify), `s1hat`,
`s2hat`, `t0hat` the NTT-encoded secret vectors, `mu` the message digest,
`Hc` the abstract `SHAKE256(mu ∥ W1Vec.encode(·))` commitment hash,
`challenge` the abstract `SampleInBall ∘ SHAKE256` challenge sampler, and
`y` this iteration's mask vector.  The body mirrors the source: `w`,
`w1 = HighBits(w)`, `c̃`, `ĉ`, `z = y + NTT⁻¹(ŝ1∘ĉ)` with its norm check,
`r0 = LowBits(w − NTT⁻¹(ŝ2∘ĉ))` with its norm check, `ct0 = NTT⁻¹(t̂0∘ĉ)`
with its norm check, the hint `MakeHint(r0 + ct0, w1)` with the `ω` bound,
and the structured signature on acceptance. -/
def signAttempt (K L : ℕ) (γ1 γ2 β : ℤ) (ω : ℕ)
    (Ahat : Fin K → Fin L → PolyR)
    (s1hat : Fin L → PolyR) (s2hat t0hat : Fin K → PolyR)
    (mu : List ℕ)
    (Hc : List ℕ → (Fin K → Fin 256 → ℤ) → List ℕ)
    (challenge : List ℕ → Fin 256 → ℤ)
    (y : Fin L → PolyR) : Option (SigS K L) :=
  let yhat : Fin L → PolyR := fun j => nttMat (y j)
  let w : Fin K → PolyR := fun i => inttMat (∑ j, pMul (Ahat i j) (yhat j))
  let w1 : Fin K → Fin 256 → ℤ := fun i c => HighBits γ2 (pVal (w i) c)
  let cT := Hc mu w1
  let chat := nttMat (castZ (challenge cT))
  let z : Fin L → PolyR := fun j => fun c => inttMat (pMul (s1hat j) chat) c + y j c
  if ∃ j : Fin L, chknormR (z j) (γ1 - β) then none else
  let cs2 : Fin K → PolyR := fun i => inttMat (pMul (s2hat i) chat)
  let r0 : Fin K → Fin 256 → ℤ := fun i c =>
    LowBits γ2 (((w i c - cs2 i c : ZMod Qn).val : ℤ))
  if ∃ i : Fin K, chknormZ (r0 i) (γ2 - β) then none else
  let ct0 : Fin K → PolyR := fun i => inttMat (pMul (t0hat i) chat)
  if ∃ i : Fin K, chknormR (ct0 i) γ2 then none else
  let h : Fin K → Fin 256 → ℤ := fun i c =>
    MakeHint γ2 (mod (r0 i c + pVal (ct0 i) c)) (w1 i c)
  if (ω : ℤ) < ∑ i : Fin K, ∑ c : Fin 256, h i c then none
  else some ⟨cT, z, h⟩

/-- `internal.verify` from `ml-dsa.ts` over the structured signature: the
`z`-norm checks, the recomputation `wApprox = NTT⁻¹(Â∘NTT(z) −
NTT(2^D·t1)∘ĉ)`, `w1' = UseHint(h, wApprox)`, the per-row hint-weight
checks, and the final comparison of `c̃` with `SHAKE256(mu ∥
W1Vec.encode(w1'))`.  The byte-level decoding (`publicCoder`/`sigCoder`
from the missing `utils.ts`, settled by C3) is behind the structured
representation. -/
def verifyS (K L : ℕ) (γ1 γ2 β : ℤ) (ω : ℕ)
    (Ahat : Fin K → Fin L → PolyR) (t1 : Fin K → Fin 256 → ℤ)
    (mu : List ℕ)
    (Hc : List ℕ → (Fin K → Fin 256 → ℤ) → List ℕ)
    (challenge : List ℕ → Fin 256 → ℤ)
    (σ : SigS K L) : Bool :=
  if ∃ j : Fin L, chknormR (σ.z j) (γ1 - β) then false else
  let chat := nttMat (castZ (challenge σ.cTilde))
  let zhat : Fin L → PolyR := fun j => nttMat (σ.z j)
  let wA : Fin K → PolyR := fun i => inttMat
    (fun c => (∑ j, pMul (Ahat i j) (zhat j)) c
      - pMul (nttMat (castZ (fun c2 => 2 ^ Dbits * t1 i c2))) chat c)
  let w1t : Fin K → Fin 256 → ℤ := fun i c => UseHint γ2 (σ.h i c) (pVal (wA i) c)
  let c2T := Hc mu w1t
  if ∃ i : Fin K, (ω : ℤ) < ∑ c : Fin 256, σ.h i c then false else
  if ∃ j : Fin L, chknormR (σ.z j) (γ1 - β) then false else
  decide (σ.cTilde = c2T)

/-- The `t = NTT⁻¹(A∘NTT(s1)) + s2` computation of `internal.keygen` from
`ml-dsa.ts` (`tmp = Σ MultiplyNTTs(aij, s1Hat[j]); NTT.decode(tmp);
polyAdd(tmp, s2[i])`). -/
def keygenT (K L : ℕ) (Ahat : Fin K → Fin L → PolyR)
    (s1 : Fin L → Fin 256 → ℤ) (s2 : Fin K → Fin 256 → ℤ) : Fin K → PolyR :=
  fun i => fun c => inttMat (∑ j, pMul (Ahat i j) (nttMat (castZ (s1 j)))) c + castZ (s2 i) c

/-- `t1` of `internal.keygen`: the `polyPowerRound` high part of `t`. -/
def keygenT1 (K L : ℕ) (Ahat : Fin K → Fin L → PolyR)
    (s1 : Fin L → Fin 256 → ℤ) (s2 : Fin K → Fin 256 → ℤ) : Fin K → Fin 256 → ℤ :=
  fun i c => (Power2Round (pVal (keygenT K L Ahat s1 s2 i) c)).1

/-- `t0` of `internal.keygen`: the `polyPowerRound` low part of `t`,
stored in the secret key and NTT-encoded by `internal.sign`. -/
def keygenT0 (K L : ℕ) (Ahat : Fin K → Fin L → PolyR)
    (s1 : Fin L → Fin 256 → ℤ) (s2 : Fin K → Fin 256 → ℤ) : Fin K → Fin 256 → ℤ :=
  fun i c => (Power2Round (pVal (keygenT K L Ahat s1 s2 i) c)).2

-- ===================================================================
-- ===== THEOREMS =====
-- ===================================================================

section BasicLemmas

lemma Q_pos : (0 : ℤ) < Q := by norm_num [Q]

lemma mod_nonneg (a m : ℤ) (hm : 0 < m) : 0 ≤ mod a m :=
  Int.emod_nonneg a (ne_of_gt hm)

lemma mod_lt (a m : ℤ) (hm : 0 < m) : mod a m < m :=
  Int.emod_lt_of_pos a hm

lemma smod_le (a m : ℤ) (hm : 0 < m) : smod a m ≤ m / 2 := by
  unfold smod
  dsimp only
  split_ifs with h
  · have := mod_lt a m hm
    omega
  · omega

lemma smod_gt (a m : ℤ) (hm : 0 < m) : m / 2 - m < smod a m := by
  unfold smod
  dsimp only
  split_ifs with h
  · omega
  · have := mod_nonneg a m hm
    omega

lemma smod_emod (a m : ℤ) : smod a m % m = a % m := by
  unfold smod mod
  dsimp only
  split_ifs with h
  · rw [Int.sub_emod, Int.emod_self, sub_zero, Int.emod_emod_of_dvd _ dvd_rfl,
      Int.emod_emod_of_dvd _ dvd_rfl]
  · exact Int.emod_emod_of_dvd _ dvd_rfl

lemma dvd_self_sub_smod (a m : ℤ) : m ∣ a - smod a m := by
  have h : (a - smod a m) % m = 0 := by
    rw [Int.sub_emod, smod_emod, sub_self, Int.zero_emod]
  exact Int.dvd_of_emod_eq_zero h

end BasicLemmas

/-- C4: for every integer coefficient `r` and both admissible values of `γ₂`,
`decompose` returns `(r1, r0)` with `mod r ≡ r1·(2γ₂) + r0 (mod Q)`; away from
the wrap case `mod r - r0 = Q - 1` the equation is exact over ℤ and
`r0 ∈ (-γ₂, γ₂]`, and in the wrap case the result is `(0, r0 - 1)` where `r0`
is the centered residue `smod (mod r) (2γ₂)`. -/
theorem claim_C4_decompose (γ2 : ℤ) (hγ : γ2 = GAMMA2_1 ∨ γ2 = GAMMA2_2) (r : ℤ) :
    ((decompose γ2 r).1 * (2 * γ2) + (decompose γ2 r).2) % Q = mod r % Q
    ∧ (mod r - smod (mod r) (2 * γ2) ≠ Q - 1 →
        decompose γ2 r = ((mod r - smod (mod r) (2 * γ2)) / (2 * γ2), smod (mod r) (2 * γ2))
        ∧ -γ2 < (decompose γ2 r).2 ∧ (decompose γ2 r).2 ≤ γ2
        ∧ (decompose γ2 r).1 * (2 * γ2) + (decompose γ2 r).2 = mod r)
    ∧ (mod r - smod (mod r) (2 * γ2) = Q - 1 →
        decompose γ2 r = (0, smod (mod r) (2 * γ2) - 1)) := by
  have hγpos : 0 < γ2 := by
    rcases hγ with h | h <;> rw [h] <;> decide
  have h2γ : 0 < 2 * γ2 := by omega
  set rP := mod r with hrP
  set r0 := smod rP (2 * γ2) with hr0
  have hdvd : (2 * γ2) ∣ rP - r0 := by
    have h : (rP - r0) % (2 * γ2) = 0 := by
      rw [hr0, Int.sub_emod, smod_emod, sub_self, Int.zero_emod]
    exact Int.dvd_of_emod_eq_zero h
  have hexact : (rP - r0) / (2 * γ2) * (2 * γ2) + r0 = rP := by
    rw [Int.ediv_mul_cancel hdvd]; ring
  have hr0le : r0 ≤ γ2 := by
    have h1 := smod_le rP (2 * γ2) h2γ
    have h22 : 2 * γ2 / 2 = γ2 := by omega
    omega
  have hr0gt : -γ2 < r0 := by
    have h1 := smod_gt rP (2 * γ2) h2γ
    have h22 : 2 * γ2 / 2 = γ2 := by omega
    omega
  have hdec : decompose γ2 r
      = if rP - r0 = Q - 1 then ((0 : ℤ), r0 - 1) else ((rP - r0) / (2 * γ2), r0) := rfl
  by_cases hw : rP - r0 = Q - 1
  · rw [hdec, if_pos hw]
    refine ⟨?_, fun hne => absurd hw hne, fun _ => rfl⟩
    show ((0 : ℤ) * (2 * γ2) + (r0 - 1)) % Q = rP % Q
    have h1 : (0 : ℤ) * (2 * γ2) + (r0 - 1) = rP - Q := by omega
    rw [h1, Int.sub_emod, Int.emod_self, sub_zero, Int.emod_emod_of_dvd _ dvd_rfl]
  · rw [hdec, if_neg hw]
    refine ⟨?_, fun _ => ⟨rfl, hr0gt, hr0le, hexact⟩, fun h => absurd h hw⟩
    show ((rP - r0) / (2 * γ2) * (2 * γ2) + r0) % Q = rP % Q
    rw [hexact]

/-- Witness for C4 at `γ₂ = GAMMA2_1`, `r = 123456789`. -/
theorem claim_C4_decompose_witness :
    (GAMMA2_1 = GAMMA2_1 ∨ GAMMA2_1 = GAMMA2_2)
    ∧ (((decompose GAMMA2_1 123456789).1 * (2 * GAMMA2_1)
          + (decompose GAMMA2_1 123456789).2) % Q = mod 123456789 % Q
      ∧ (mod 123456789 - smod (mod 123456789) (2 * GAMMA2_1) ≠ Q - 1 →
          decompose GAMMA2_1 123456789
            = ((mod 123456789 - smod (mod 123456789) (2 * GAMMA2_1)) / (2 * GAMMA2_1),
                smod (mod 123456789) (2 * GAMMA2_1))
          ∧ -GAMMA2_1 < (decompose GAMMA2_1 123456789).2
          ∧ (decompose GAMMA2_1 123456789).2 ≤ GAMMA2_1
          ∧ (decompose GAMMA2_1 123456789).1 * (2 * GAMMA2_1)
              + (decompose GAMMA2_1 123456789).2 = mod 123456789)
      ∧ (mod 123456789 - smod (mod 123456789) (2 * GAMMA2_1) = Q - 1 →
          decompose GAMMA2_1 123456789 = (0, smod (mod 123456789) (2 * GAMMA2_1) - 1))) :=
  ⟨Or.inl rfl, claim_C4_decompose GAMMA2_1 (Or.inl rfl) 123456789⟩

section GetParamsLemmas

lemma ALL_PARAMS_none {x : ℕ} (h44 : x ≠ 44) (h65 : x ≠ 65) (h87 : x ≠ 87) :
    ALL_PARAMS x = none := by
  unfold ALL_PARAMS
  simp [h44, h65, h87]

lemma getParams_eq_withTable {T N_ lvl : ℕ} {table}
    (hA : ALL_PARAMS (normalizeSecurityLevel lvl) = some table) :
    getParams T N_ lvl = getParamsWithTable T N_ table := by
  unfold getParams
  rw [hA]

lemma getParamsOk_spec {T N_ lvl : ℕ} (h : getParamsOk T N_ lvl = true) :
    ∃ p, getParams T N_ lvl = .ok p ∧ p.nu = 3 ∧ 2 ≤ p.K_iter ∧ p.K_iter ≤ 100
      ∧ p.r < p.rPrime := by
  unfold getParamsOk at h
  rcases hg : getParams T N_ lvl with e | p
  · rw [hg] at h; simp at h
  · rw [hg] at h
    simp only [Bool.and_eq_true, decide_eq_true_eq] at h
    exact ⟨p, rfl, h.1.1.1, h.1.1.2, h.1.2, h.2⟩

end GetParamsLemmas

/-- C8: `getParams(T, N, level)` errors for `T < 2`, `T > N`, `N < 2`, `N > 6`,
or a security level outside `{44, 65, 87, 128, 192, 256}`; for every valid
`(T, N, level)` it returns parameters with `nu = 3`, `K_iter ∈ [2, 100]` and
`r < rPrime`. -/
theorem claim_C8_getParams (T N_ lvl : ℕ) :
    ((T < 2 ∨ N_ < T ∨ N_ < 2 ∨ 6 < N_ ∨ lvl ∉ ([44, 65, 87, 128, 192, 256] : List ℕ)) →
      ∃ e, getParams T N_ lvl = .error e)
    ∧ (2 ≤ T → T ≤ N_ → N_ ≤ 6 → lvl ∈ ([44, 65, 87, 128, 192, 256] : List ℕ) →
      ∃ p, getParams T N_ lvl = .ok p ∧ p.nu = 3 ∧ 2 ≤ p.K_iter ∧ p.K_iter ≤ 100
        ∧ p.r < p.rPrime) := by
  constructor
  · intro h
    rcases hA : ALL_PARAMS (normalizeSecurityLevel lvl) with _ | table
    · exact ⟨_, by unfold getParams; rw [hA]⟩
    · have hTN : T < 2 ∨ N_ < T ∨ N_ < 2 ∨ 6 < N_ := by
        rcases h with h | h | h | h | h
        · exact Or.inl h
        · exact Or.inr (Or.inl h)
        · exact Or.inr (Or.inr (Or.inl h))
        · exact Or.inr (Or.inr (Or.inr h))
        · exfalso
          simp only [List.mem_cons, List.not_mem_nil, or_false] at h
          push_neg at h
          obtain ⟨n44, n65, n87, n128, n192, n256⟩ := h
          have hnorm : normalizeSecurityLevel lvl = lvl := by
            unfold normalizeSecurityLevel; simp [n128, n192, n256]
          rw [hnorm, ALL_PARAMS_none n44 n65 n87] at hA
          exact Option.noConfusion hA
      rw [getParams_eq_withTable hA]
      unfold getParamsWithTable MAX_PARTIES
      split_ifs with h1 h2 h3 h4
      · exact ⟨_, rfl⟩
      · exact ⟨_, rfl⟩
      · exact ⟨_, rfl⟩
      · exact ⟨_, rfl⟩
      · omega
  · intro hT hTN hN hlvl
    apply getParamsOk_spec
    have hT6 : T ≤ 6 := le_trans hTN hN
    have hN2 : 2 ≤ N_ := le_trans hT hTN
    simp only [List.mem_cons, List.not_mem_nil, or_false] at hlvl
    interval_cases T <;> interval_cases N_ <;>
      (rcases hlvl with rfl | rfl | rfl | rfl | rfl | rfl) <;> first
        | omega
        | decide

/-- Witness for C8 at `(T, N, level) = (2, 3, 44)` (and, for the error part,
at `(1, 3, 44)`). -/
theorem claim_C8_getParams_witness :
    (∃ p, getParams 2 3 44 = .ok p ∧ p.nu = 3 ∧ 2 ≤ p.K_iter ∧ p.K_iter ≤ 100
        ∧ p.r < p.rPrime)
    ∧ (∃ e, getParams 1 3 44 = .error e) :=
  ⟨(claim_C8_getParams 2 3 44).2 (by decide) (by decide) (by decide) (by decide),
   (claim_C8_getParams 1 3 44).1 (Or.inl (by decide))⟩

-- ==================== Hint coder lemmas ====================

section HintLemmas

lemma getD_lt_of_forall {buf : List ℕ} (hb : ∀ b ∈ buf, b < 256) (t : ℕ) :
    buf.getD t 0 < 256 := by
  induction buf generalizing t with
  | nil => simp [List.getD]
  | cons a l ih =>
    cases t with
    | zero => exact hb a (List.mem_cons_self a l)
    | succ t' => exact ih (fun b hbm => hb b (List.mem_cons_of_mem a hbm)) t'

lemma getD_set_int (l : List ℤ) (i p : ℕ) (x d : ℤ) :
    (l.set i x).getD p d = if i = p ∧ i < l.length then x else l.getD p d := by
  induction l generalizing i p with
  | nil => simp [List.set]
  | cons a as ih =>
    cases i with
    | zero =>
      cases p with
      | zero => simp
      | succ p' => simp
    | succ i' =>
      cases p with
      | zero => simp
      | succ p' =>
        simp only [List.set, List.getD_cons_succ, List.length_cons]
        rw [ih]
        by_cases h : i' = p' ∧ i' < as.length
        · rw [if_pos h, if_pos ⟨by omega, by omega⟩]
        · rw [if_neg h, if_neg (by omega)]

lemma getD_replicate_zero (n p : ℕ) : (List.replicate n (0 : ℤ)).getD p 0 = 0 := by
  induction n generalizing p with
  | zero => simp [List.getD]
  | succ n ih =>
    cases p with
    | zero => simp [List.replicate]
    | succ p' => simp [List.replicate, ih p']

lemma hintDecodeIdxLoop_eq_none (buf : List ℕ) (k : ℕ) :
    ∀ steps j hi, hintDecodeIdxLoop buf k hi j steps = none ↔
      ∃ t, j ≤ t ∧ t < j + steps ∧ k < t ∧ buf.getD t 0 ≤ buf.getD (t - 1) 0 := by
  intro steps
  induction steps with
  | zero =>
    intro j hi
    simp only [hintDecodeIdxLoop]
    constructor
    · intro h; exact Option.noConfusion h
    · rintro ⟨t, h1, h2, _, _⟩; omega
  | succ n ih =>
    intro j hi
    unfold hintDecodeIdxLoop
    split_ifs with hc
    · constructor
      · intro _; exact ⟨j, le_refl j, by omega, hc.1, hc.2⟩
      · intro _; rfl
    · rw [ih]
      constructor
      · rintro ⟨t, h1, h2, h3, h4⟩
        exact ⟨t, by omega, by omega, h3, h4⟩
      · rintro ⟨t, h1, h2, h3, h4⟩
        refine ⟨t, ?_, by omega, h3, h4⟩
        rcases Nat.eq_or_lt_of_le h1 with rfl | h
        · exact absurd ⟨h3, h4⟩ hc
        · omega

lemma hintDecodeIdxLoop_eq_some (buf : List ℕ) (k : ℕ) :
    ∀ steps j hi hi', hintDecodeIdxLoop buf k hi j steps = some hi' →
      hi'.length = hi.length
      ∧ (∀ p, (∀ t, j ≤ t → t < j + steps → buf.getD t 0 ≠ p) →
          hi'.getD p 0 = hi.getD p 0)
      ∧ (∀ p, p < hi.length → (∃ t, j ≤ t ∧ t < j + steps ∧ buf.getD t 0 = p) →
          hi'.getD p 0 = 1)
      ∧ ((∀ c ∈ hi, c = 0 ∨ c = 1) → ∀ c ∈ hi', c = 0 ∨ c = 1) := by
  intro steps
  induction steps with
  | zero =>
    intro j hi hi' h
    simp only [hintDecodeIdxLoop, Option.some.injEq] at h
    subst h
    refine ⟨rfl, fun p _ => rfl, ?_, fun hv => hv⟩
    rintro p _ ⟨t, h1, h2, _⟩; omega
  | succ n ih =>
    intro j hi hi' h
    unfold hintDecodeIdxLoop at h
    split_ifs at h with hc
    obtain ⟨hlen, hsame, hhit, hvals⟩ := ih (j + 1) (hi.set (buf.getD j 0) 1) hi' h
    have hlen' : (hi.set (buf.getD j 0) 1).length = hi.length := List.length_set ..
    refine ⟨hlen.trans hlen', ?_, ?_, ?_⟩
    · intro p hp
      rw [hsame p (fun t ht1 ht2 => hp t (by omega) (by omega))]
      rw [getD_set_int]
      rw [if_neg]
      rintro ⟨heq, _⟩
      exact hp j le_rfl (by omega) heq
    · intro p hplen ⟨t, ht1, ht2, ht3⟩
      rcases Nat.eq_or_lt_of_le ht1 with rfl | htgt
      · -- the write at this step sets p; later steps can only rewrite it to 1
        by_cases hlater : ∃ t', j + 1 ≤ t' ∧ t' < j + 1 + n ∧ buf.getD t' 0 = p
        · exact hhit p (by rw [hlen']; exact hplen) hlater
        · push_neg at hlater
          rw [hsame p (fun t' h1 h2 => hlater t' h1 (by omega))]
          rw [getD_set_int, if_pos ⟨ht3, by rw [← ht3] at hplen; exact hplen⟩]
      · exact hhit p (by rw [hlen']; exact hplen) ⟨t, by omega, by omega, ht3⟩
    · intro hv
      apply hvals
      intro c hcmem
      rcases List.mem_or_eq_of_mem_set hcmem with hcm | rfl
      · exact hv c hcm
      · exact Or.inr rfl

lemma hintDecodeRowsLoop_acc (OMEGA : ℕ) (buf : List ℕ) :
    ∀ rows i k acc, hintDecodeRowsLoop OMEGA buf rows i k acc
      = (hintDecodeRowsLoop OMEGA buf rows i k []).map
          (fun p => (p.1, acc.reverse ++ p.2)) := by
  intro rows
  induction rows with
  | zero => intro i k acc; simp [hintDecodeRowsLoop]
  | succ n ih =>
    intro i k acc
    unfold hintDecodeRowsLoop
    dsimp only
    split_ifs with hc
    · rfl
    · cases hidx : hintDecodeIdxLoop buf k (List.replicate 256 0) k
        (buf.getD (OMEGA + i) 0 - k) with
      | none => rfl
      | some hi =>
        dsimp only
        rw [ih (i + 1) (buf.getD (OMEGA + i) 0) (hi :: acc),
          ih (i + 1) (buf.getD (OMEGA + i) 0) [hi]]
        cases hintDecodeRowsLoop OMEGA buf n (i + 1) (buf.getD (OMEGA + i) 0) [] with
        | none => rfl
        | some p => simp

lemma hintDecodeRowsLoop_none_iff (OMEGA : ℕ) (buf : List ℕ) :
    ∀ rows i, (hintDecodeRowsLoop OMEGA buf rows i (hintPrevCursor OMEGA buf i) [] = none
      ↔ ∃ r, i ≤ r ∧ r < i + rows ∧ ¬ hintRowOk OMEGA buf r) := by
  intro rows
  induction rows with
  | zero =>
    intro i
    simp only [hintDecodeRowsLoop]
    constructor
    · intro h; exact Option.noConfusion h
    · rintro ⟨r, h1, h2, _⟩; omega
  | succ n ih =>
    intro i
    unfold hintDecodeRowsLoop
    dsimp only
    have hcur : buf.getD (OMEGA + i) 0 = hintCursor OMEGA buf i := rfl
    split_ifs with hc
    · constructor
      · intro _
        refine ⟨i, le_rfl, by omega, fun hok => ?_⟩
        obtain ⟨h1, h2, _⟩ := hok
        rw [hcur] at hc
        omega
      · intro _; rfl
    · rw [hcur] at hc
      push_neg at hc
      cases hidx : hintDecodeIdxLoop buf (hintPrevCursor OMEGA buf i)
          (List.replicate 256 0) (hintPrevCursor OMEGA buf i)
          (buf.getD (OMEGA + i) 0 - hintPrevCursor OMEGA buf i) with
      | none =>
        rw [hintDecodeIdxLoop_eq_none] at hidx
        obtain ⟨t, ht1, ht2, ht3, ht4⟩ := hidx
        constructor
        · intro _
          refine ⟨i, le_rfl, by omega, fun hok => ?_⟩
          obtain ⟨_, _, h3⟩ := hok
          rw [hcur] at ht2
          exact h3 t ht3 (by omega) ht4
        · intro _; rfl
      | some hi =>
        dsimp only
        have hprev : buf.getD (OMEGA + i) 0 = hintPrevCursor OMEGA buf (i + 1) := rfl
        rw [hintDecodeRowsLoop_acc, hprev, Option.map_eq_none', ih (i + 1)]
        have hrowOk : hintRowOk OMEGA buf i := by
          refine ⟨hc.1, hc.2, fun j hj1 hj2 hle => ?_⟩
          have hn := (hintDecodeIdxLoop_eq_none buf (hintPrevCursor OMEGA buf i)
            (buf.getD (OMEGA + i) 0 - hintPrevCursor OMEGA buf i)
            (hintPrevCursor OMEGA buf i) (List.replicate 256 0)).mpr
            ⟨j, le_of_lt hj1, by rw [hcur]; omega, hj1, hle⟩
          rw [hn] at hidx
          exact Option.noConfusion hidx
        constructor
        · rintro ⟨r, h1, h2, h3⟩
          exact ⟨r, by omega, by omega, h3⟩
        · rintro ⟨r, h1, h2, h3⟩
          rcases Nat.eq_or_lt_of_le h1 with rfl | hlt
          · exact absurd hrowOk h3
          · exact ⟨r, by omega, by omega, h3⟩

lemma hintDecodeRowsLoop_some (OMEGA : ℕ) (buf : List ℕ)
    (hbuf : ∀ t, buf.getD t 0 < 256) :
    ∀ rows i, (∀ r, i ≤ r → r < i + rows → hintRowOk OMEGA buf r) →
      ∃ h, hintDecodeRowsLoop OMEGA buf rows i (hintPrevCursor OMEGA buf i) []
            = some (hintPrevCursor OMEGA buf (i + rows), h)
        ∧ h.length = rows
        ∧ ∀ r, r < rows →
            (h.getD r []).length = 256
            ∧ (∀ c ∈ h.getD r [], c = 0 ∨ c = 1)
            ∧ ∀ p, ((h.getD r []).getD p 0 = 1 ↔
                ∃ t, hintPrevCursor OMEGA buf (i + r) ≤ t
                  ∧ t < hintCursor OMEGA buf (i + r) ∧ buf.getD t 0 = p) := by
  intro rows
  induction rows with
  | zero =>
    intro i _
    exact ⟨[], rfl, rfl, fun r hr => absurd hr (Nat.not_lt_zero r)⟩
  | succ n ih =>
    intro i hok
    have hoki : hintRowOk OMEGA buf i := hok i le_rfl (by omega)
    obtain ⟨hA, hB, hC⟩ := hoki
    unfold hintDecodeRowsLoop
    dsimp only
    have hcur : buf.getD (OMEGA + i) 0 = hintCursor OMEGA buf i := rfl
    rw [if_neg (by rw [hcur]; omega)]
    cases hidx : hintDecodeIdxLoop buf (hintPrevCursor OMEGA buf i)
        (List.replicate 256 0) (hintPrevCursor OMEGA buf i)
        (buf.getD (OMEGA + i) 0 - hintPrevCursor OMEGA buf i) with
    | none =>
      exfalso
      rw [hintDecodeIdxLoop_eq_none] at hidx
      obtain ⟨t, ht1, ht2, ht3, ht4⟩ := hidx
      rw [hcur] at ht2
      exact hC t ht3 (by omega) ht4
    | some hi =>
      obtain ⟨hilen, hisame, hihit, hivals⟩ :=
        hintDecodeIdxLoop_eq_some buf (hintPrevCursor OMEGA buf i) _ _ _ _ hidx
      rw [List.length_replicate] at hilen
      have hrange : hintPrevCursor OMEGA buf i
          + (buf.getD (OMEGA + i) 0 - hintPrevCursor OMEGA buf i)
          = hintCursor OMEGA buf i := by rw [hcur]; omega
      obtain ⟨h', hrec, hlen', hdesc'⟩ := ih (i + 1)
        (fun r h1 h2 => hok r (by omega) (by omega))
      have hprev : buf.getD (OMEGA + i) 0 = hintPrevCursor OMEGA buf (i + 1) := rfl
      dsimp only
      rw [hintDecodeRowsLoop_acc, hprev, hrec]
      refine ⟨hi :: h', ?_, by rw [List.length_cons, hlen'], ?_⟩
      · have hadd : i + 1 + n = i + (n + 1) := by omega
        rw [hadd]
        rfl
      · intro r hr
        cases r with
        | zero =>
          simp only [List.getD_cons_zero]
          refine ⟨hilen, hivals (fun c hc => Or.inl (List.eq_of_mem_replicate hc)),
            fun p => ?_⟩
          constructor
          · intro h1
            by_contra hno
            push_neg at hno
            rw [hisame p (fun t ht1 ht2 => hno t ht1 (by
                have h2 : t < hintCursor OMEGA buf i := by rw [← hrange]; omega
                simpa using h2)),
              getD_replicate_zero] at h1
            exact absurd h1 (by norm_num)
          · rintro ⟨t, ht1, ht2, ht3⟩
            refine hihit p (by rw [List.length_replicate, ← ht3]; exact hbuf t)
              ⟨t, ht1, ?_, ht3⟩
            have h2 : t < hintCursor OMEGA buf i := by simpa using ht2
            omega
        | succ r' =>
          simp only [List.getD_cons_succ]
          have hr' : r' < n := by omega
          obtain ⟨hl, hv, hiff⟩ := hdesc' r' hr'
          have hadd : i + 1 + r' = i + (r' + 1) := by omega
          rw [hadd] at hiff
          exact ⟨hl, hv, hiff⟩

lemma hintViolation_iff (OMEGA K : ℕ) (buf : List ℕ) :
    hintViolation OMEGA K buf ↔
      (∃ r, r < K ∧ ¬ hintRowOk OMEGA buf r)
      ∨ (∃ j, hintPrevCursor OMEGA buf K ≤ j ∧ j < OMEGA ∧ buf.getD j 0 ≠ 0) := by
  unfold hintViolation
  constructor
  · rintro (⟨i, hi, hc⟩ | ⟨i, hi, j, hj1, hj2, hj3⟩ | h3)
    · refine Or.inl ⟨i, hi, fun hok => ?_⟩
      obtain ⟨h1, h2, _⟩ := hok
      omega
    · refine Or.inl ⟨i, hi, fun hok => ?_⟩
      exact hok.2.2 j hj1 hj2 hj3
    · exact Or.inr h3
  · rintro (⟨r, hr, hnot⟩ | h3)
    · by_cases h1 : hintCursor OMEGA buf r < hintPrevCursor OMEGA buf r
      · exact Or.inl ⟨r, hr, Or.inl h1⟩
      · by_cases h2 : OMEGA < hintCursor OMEGA buf r
        · exact Or.inl ⟨r, hr, Or.inr h2⟩
        · refine Or.inr (Or.inl ⟨r, hr, ?_⟩)
          unfold hintRowOk at hnot
          push_neg at hnot
          obtain ⟨j, hj1, hj2, hj3⟩ := hnot (by omega) (by omega)
          exact ⟨j, hj1, hj2, hj3⟩
    · exact Or.inr (Or.inr h3)

end HintLemmas

/-- C6: decoding an `(ω + K)`-byte hint buffer rejects (returns the source's
`false`, embedded as `none`) exactly when some per-row cursor decreases or
exceeds `ω`, some row's listed indices are non-increasing, or some byte after
the last cursor's index region is nonzero; otherwise it returns `K`
polynomials of `0/1` coefficients whose ones are exactly at the listed
indices. -/
theorem claim_C6_hintDecode (OMEGA K : ℕ) (buf : List ℕ)
    (hlen : buf.length = OMEGA + K) (hbytes : ∀ b ∈ buf, b < 256) :
    (hintDecode OMEGA K buf = none ↔ hintViolation OMEGA K buf)
    ∧ (∀ h, hintDecode OMEGA K buf = some h →
        h.length = K
        ∧ (∀ hi ∈ h, hi.length = 256 ∧ ∀ c ∈ hi, c = 0 ∨ c = 1)
        ∧ (∀ i, i < K → ∀ p,
            ((h.getD i []).getD p 0 = 1 ↔
              ∃ j, hintPrevCursor OMEGA buf i ≤ j ∧ j < hintCursor OMEGA buf i
                ∧ buf.getD j 0 = p))) := by
  have hbuf : ∀ t, buf.getD t 0 < 256 := getD_lt_of_forall hbytes
  have hprev0 : hintPrevCursor OMEGA buf 0 = 0 := rfl
  by_cases hviol : ∃ r, r < K ∧ ¬ hintRowOk OMEGA buf r
  · have hnone : hintDecodeRowsLoop OMEGA buf K 0 0 [] = none := by
      obtain ⟨r, h1, h2⟩ := hviol
      exact (hintDecodeRowsLoop_none_iff OMEGA buf K 0).mpr ⟨r, by omega, by omega, h2⟩
    constructor
    · rw [hintViolation_iff]
      unfold hintDecode
      rw [hnone]
      exact ⟨fun _ => Or.inl hviol, fun _ => rfl⟩
    · intro h hsome
      exfalso
      unfold hintDecode at hsome
      rw [hnone] at hsome
      exact Option.noConfusion hsome
  · push_neg at hviol
    obtain ⟨h, hsome, hlen', hdesc⟩ := hintDecodeRowsLoop_some OMEGA buf hbuf K 0
      (fun r h1 h2 => hviol r (by omega))
    rw [hprev0] at hsome
    simp only [Nat.zero_add] at hsome hdesc
    have hall : ((List.range' (hintPrevCursor OMEGA buf K) (OMEGA - hintPrevCursor OMEGA buf K)).all
        (fun j => buf.getD j 0 == 0) = true)
        ↔ ¬∃ j, hintPrevCursor OMEGA buf K ≤ j ∧ j < OMEGA ∧ buf.getD j 0 ≠ 0 := by
      rw [List.all_eq_true]
      constructor
      · rintro hA ⟨j, hj1, hj2, hj3⟩
        have hjm : j ∈ List.range' (hintPrevCursor OMEGA buf K)
            (OMEGA - hintPrevCursor OMEGA buf K) := by
          rw [List.mem_range'_1]
          omega
        exact hj3 (by simpa using hA j hjm)
      · intro hno j hj
        rw [List.mem_range'_1] at hj
        by_contra hne
        exact hno ⟨j, hj.1, by omega, by simpa using hne⟩
    constructor
    · rw [hintViolation_iff]
      unfold hintDecode
      rw [hsome]
      dsimp only
      constructor
      · intro hd
        split_ifs at hd with hA
        refine Or.inr ?_
        by_contra hno
        exact hA (hall.mpr hno)
      · rintro (⟨r, hr, hnot⟩ | h3)
        · exact absurd (hviol r hr) hnot
        · rw [if_neg (fun hA => (hall.mp hA) h3)]
    · intro h2 hsome2
      unfold hintDecode at hsome2
      rw [hsome] at hsome2
      dsimp only at hsome2
      split_ifs at hsome2 with hA
      obtain rfl : h = h2 := by
        injection hsome2
      refine ⟨hlen', ?_, ?_⟩
      · intro hi hmem
        obtain ⟨n, hn, hget⟩ := List.mem_iff_getElem.mp hmem
        have hgd : h.getD n [] = hi := by
          rw [List.getD_eq_getElem _ _ hn, hget]
        obtain ⟨hl, hv, _⟩ := hdesc n (by omega)
        rw [hgd] at hl hv
        exact ⟨hl, hv⟩
      · intro i hi p
        obtain ⟨_, _, hiff⟩ := hdesc i hi
        simpa using hiff p

/-- Witness for C6 on the concrete buffer `[7, 0, 0, 1]` with `ω = 3`,
`K = 1` (one listed index `7` in row 0, cursor `1`). -/
theorem claim_C6_hintDecode_witness :
    ([7, 0, 0, 1] : List ℕ).length = 3 + 1
    ∧ (∀ b ∈ ([7, 0, 0, 1] : List ℕ), b < 256)
    ∧ ((hintDecode 3 1 [7, 0, 0, 1] = none ↔ hintViolation 3 1 [7, 0, 0, 1])
      ∧ (∀ h, hintDecode 3 1 [7, 0, 0, 1] = some h →
          h.length = 1
          ∧ (∀ hi ∈ h, hi.length = 256 ∧ ∀ c ∈ hi, c = 0 ∨ c = 1)
          ∧ (∀ i, i < 1 → ∀ p,
              ((h.getD i []).getD p 0 = 1 ↔
                ∃ j, hintPrevCursor 3 [7, 0, 0, 1] i ≤ j
                  ∧ j < hintCursor 3 [7, 0, 0, 1] i
                  ∧ ([7, 0, 0, 1] : List ℕ).getD j 0 = p)))) :=
  ⟨by decide, by decide, claim_C6_hintDecode 3 1 [7, 0, 0, 1] (by decide) (by decide)⟩

-- ==================== SampleInBall lemmas ====================

section SampleInBallLemmas

lemma getD_mem_of_lt {l : List ℤ} {b : ℕ} (hb : b < l.length) : l.getD b 0 ∈ l := by
  rw [List.getD_eq_getElem _ _ hb]
  exact List.getElem_mem hb

lemma countP_set_add (p : ℤ → Bool) :
    ∀ (l : List ℤ) (i : ℕ) (x : ℤ), i < l.length →
      (l.set i x).countP p + (if p (l.getD i 0) then 1 else 0)
        = l.countP p + (if p x then 1 else 0) := by
  intro l
  induction l with
  | nil => intro i x h; simp at h
  | cons a as ih =>
    intro i x h
    cases i with
    | zero =>
      simp only [List.set, List.getD_cons_zero, List.countP_cons]
      omega
    | succ i' =>
      simp only [List.set, List.getD_cons_succ, List.countP_cons]
      have := ih i' x (by simpa using h)
      omega

lemma countP_replicate_zero (n : ℕ) :
    (List.replicate n (0 : ℤ)).countP (fun c => decide (c ≠ 0)) = 0 := by
  induction n with
  | zero => rfl
  | succ n ih => simp [List.replicate, List.countP_cons, ih]

lemma sibFind_le (stream : ℕ → ℕ) (i : ℕ) :
    ∀ fuel pos b pos', sibFind stream i pos fuel = some (b, pos') → b ≤ i := by
  intro fuel
  induction fuel with
  | zero => intro pos b pos' h; exact Option.noConfusion h
  | succ n ih =>
    intro pos b pos' h
    unfold sibFind at h
    dsimp only at h
    split_ifs at h with hle
    · injection h with h'
      obtain rfl : stream pos % 256 = b := congrArg Prod.fst h'
      exact hle
    · exact ih (pos + 1) b pos' h

lemma sibLoop_spec (stream : ℕ → ℕ) (fuel : ℕ) :
    ∀ steps pos maskPos maskBit i pre cnt p,
      i + steps = 256 →
      pre.length = 256 →
      (∀ c ∈ pre, c = -1 ∨ c = 0 ∨ c = 1) →
      (∀ idx, i ≤ idx → pre.getD idx 0 = 0) →
      pre.countP (fun c => decide (c ≠ 0)) = cnt →
      sibLoop stream fuel steps pos maskPos maskBit i pre = some p →
      p.length = 256 ∧ (∀ c ∈ p, c = -1 ∨ c = 0 ∨ c = 1)
        ∧ p.countP (fun c => decide (c ≠ 0)) = cnt + steps := by
  intro steps
  induction steps with
  | zero =>
    intro pos maskPos maskBit i pre cnt p _ hlen hvals _ hcnt h
    obtain rfl : pre = p := by injection h
    exact ⟨hlen, hvals, by omega⟩
  | succ n ih =>
    intro pos maskPos maskBit i pre cnt p hi hlen hvals hzero hcnt h
    unfold sibLoop at h
    cases hfind : sibFind stream i pos fuel with
    | none => rw [hfind] at h; exact Option.noConfusion h
    | some bp =>
      obtain ⟨b, pos'⟩ := bp
      rw [hfind] at h
      dsimp only at h
      have hb : b ≤ i := sibFind_le stream i fuel pos b pos' hfind
      have hilt : i < 256 := by omega
      have hblt : b < 256 := by omega
      set mb := if maskPos < 8 then stream maskPos % 256 else 0 with hmb
      set sign : ℤ := 1 - 2 * (((mb >>> maskBit) % 2 : ℕ) : ℤ) with hsign
      have hsign' : sign = 1 ∨ sign = -1 := by
        rcases Nat.mod_two_eq_zero_or_one (mb >>> maskBit) with h2 | h2 <;>
          rw [hsign, h2] <;> norm_num
      have hsignne : sign ≠ 0 := by rcases hsign' with h' | h' <;> rw [h'] <;> norm_num
      set preA := pre.set i (pre.getD b 0) with hpreA
      set pre' := preA.set b sign with hpre'
      have hlenA : preA.length = 256 := by rw [hpreA, List.length_set, hlen]
      have hlen' : pre'.length = 256 := by rw [hpre', List.length_set, hlenA]
      have hvals' : ∀ c ∈ pre', c = -1 ∨ c = 0 ∨ c = 1 := by
        intro c hc
        rcases List.mem_or_eq_of_mem_set hc with hc1 | rfl
        · rcases List.mem_or_eq_of_mem_set hc1 with hc2 | rfl
          · exact hvals c hc2
          · exact hvals _ (getD_mem_of_lt (by omega))
        · rcases hsign' with h' | h' <;> rw [h'] <;> simp
      have hzero' : ∀ idx, i + 1 ≤ idx → pre'.getD idx 0 = 0 := by
        intro idx hidx
        rw [hpre', getD_set_int, if_neg (by omega), hpreA, getD_set_int,
          if_neg (by omega)]
        exact hzero idx (by omega)
      have hgetA : preA.getD b 0 = pre.getD b 0 := by
        rw [hpreA, getD_set_int]
        split_ifs <;> rfl
      have hcnt' : pre'.countP (fun c => decide (c ≠ 0)) = cnt + 1 := by
        have e1 := countP_set_add (fun c => decide (c ≠ 0)) pre i (pre.getD b 0)
          (by omega)
        have e2 := countP_set_add (fun c => decide (c ≠ 0)) preA b sign
          (by omega)
        rw [← hpreA, hzero i le_rfl] at e1
        rw [← hpre', hgetA] at e2
        dsimp only at e1 e2
        rw [show (if decide ((0 : ℤ) ≠ 0) = true then 1 else 0) = 0 by simp] at e1
        rw [show (if decide (sign ≠ 0) = true then 1 else 0) = 1 by simp [hsignne]] at e2
        omega
      split_ifs at h with hmask
      · obtain ⟨r1, r2, r3⟩ := ih pos' (maskPos + 1) 0 (i + 1) pre' (cnt + 1) p
          (by omega) hlen' hvals' hzero' hcnt' h
        exact ⟨r1, r2, by omega⟩
      · obtain ⟨r1, r2, r3⟩ := ih pos' maskPos (maskBit + 1) (i + 1) pre' (cnt + 1) p
          (by omega) hlen' hvals' hzero' hcnt' h
        exact ⟨r1, r2, by omega⟩

end SampleInBallLemmas

/-- C5: whenever `SampleInBall` returns a polynomial (the rejection reads are
modelled with fuel over the abstract SHAKE256 stream), the result has 256
coefficients, all in `{-1, 0, 1}`, with exactly `TAU` of them nonzero. -/
theorem claim_C5_SampleInBall (TAU : ℕ) (stream : ℕ → ℕ) (fuel : ℕ) (p : List ℤ)
    (hT : TAU ≤ 256) (hp : SampleInBall TAU stream fuel = some p) :
    p.length = 256 ∧ (∀ c ∈ p, c = -1 ∨ c = 0 ∨ c = 1)
      ∧ p.countP (fun c => decide (c ≠ 0)) = TAU := by
  have h := sibLoop_spec stream fuel TAU 8 0 0 (256 - TAU) (List.replicate 256 0) 0 p
    (by omega) (List.length_replicate ..)
    (fun c hc => Or.inr (Or.inl (List.eq_of_mem_replicate hc)))
    (fun idx _ => getD_replicate_zero 256 idx)
    (countP_replicate_zero 256)
    hp
  exact ⟨h.1, h.2.1, by have := h.2.2; omega⟩

/-- Witness for C5 with `TAU = 39` and the all-zero stream (every candidate
byte is `0 ≤ i`, so one unit of fuel suffices). -/
theorem claim_C5_SampleInBall_witness :
    (39 : ℕ) ≤ 256
    ∧ SampleInBall 39 (fun _ => 0) 1 = some ((SampleInBall 39 (fun _ => 0) 1).getD [])
    ∧ (((SampleInBall 39 (fun _ => 0) 1).getD []).length = 256
      ∧ (∀ c ∈ (SampleInBall 39 (fun _ => 0) 1).getD [], c = -1 ∨ c = 0 ∨ c = 1)
      ∧ ((SampleInBall 39 (fun _ => 0) 1).getD []).countP (fun c => decide (c ≠ 0)) = 39) :=
  ⟨by decide, by rfl,
   claim_C5_SampleInBall 39 (fun _ => 0) 1 _ (by decide) (by rfl)⟩

-- ==================== Bit-packing lemmas ====================

section PackLemmas

lemma two_pow_256 (q : ℕ) : (256 : ℕ) ^ q = 2 ^ (8 * q) := by
  rw [show (256 : ℕ) = 2 ^ 8 from rfl, ← pow_mul]

lemma lor_shiftLeft_add {a m j : ℕ} (ha : a < 2 ^ j) : a ||| (m <<< j) = a + m * 2 ^ j := by
  apply Nat.eq_of_testBit_eq
  intro i
  rw [Nat.testBit_lor, Nat.testBit_shiftLeft]
  by_cases hij : j ≤ i
  · rw [show (decide (j ≤ i)) = true from decide_eq_true hij, Bool.true_and]
    rw [Nat.testBit_lt_two_pow (lt_of_lt_of_le ha (Nat.pow_le_pow_right (by norm_num) hij)),
      Bool.false_or]
    obtain ⟨e, rfl⟩ : ∃ e, i = j + e := ⟨i - j, by omega⟩
    rw [Nat.testBit_to_div_mod, Nat.testBit_to_div_mod]
    have h2 : (a + m * 2 ^ j) / 2 ^ (j + e) = m / 2 ^ e := by
      rw [pow_add, ← Nat.div_div_eq_div_mul]
      have h3 : (a + m * 2 ^ j) / 2 ^ j = m := by
        rw [Nat.add_mul_div_right _ _ (pow_pos two_pos j), Nat.div_eq_of_lt ha, zero_add]
      rw [h3]
    rw [h2, Nat.add_sub_cancel_left]
  · rw [show (decide (j ≤ i)) = false from decide_eq_false hij, Bool.false_and, Bool.or_false]
    rw [Nat.testBit_to_div_mod, Nat.testBit_to_div_mod]
    have hd : (a + m * 2 ^ j) / 2 ^ i = a / 2 ^ i + m * 2 ^ (j - i - 1) * 2 := by
      have h1 : m * 2 ^ j = m * 2 ^ (j - i - 1) * 2 * 2 ^ i := by
        rw [mul_assoc, mul_assoc, ← pow_succ']
        rw [← pow_add]
        congr 2
        omega
      rw [h1, Nat.add_mul_div_right _ _ (pow_pos two_pos i)]
    rw [hd]
    exact decide_eq_decide.mpr (by omega)

lemma emitBytes_spec : ∀ q v, emitBytes q v = (bytesLE q v, v / 256 ^ q) := by
  intro q
  induction q with
  | zero => intro v; simp [emitBytes, bytesLE]
  | succ n ih =>
    intro v
    show ((v % 256) :: (emitBytes n (v / 256)).1, (emitBytes n (v / 256)).2)
        = (bytesLE (n + 1) v, v / 256 ^ (n + 1))
    rw [ih (v / 256)]
    show ((v % 256) :: bytesLE n (v / 256), v / 256 / 256 ^ n)
        = (bytesLE (n + 1) v, v / 256 ^ (n + 1))
    rw [Nat.div_div_eq_div_mul, ← pow_succ']
    rfl

lemma bytesLE_length : ∀ n x, (bytesLE n x).length = n := by
  intro n
  induction n with
  | zero => intro x; rfl
  | succ m ih => intro x; simp [bytesLE, ih]

lemma bytesLE_add : ∀ a x b, bytesLE (a + b) x = bytesLE a x ++ bytesLE b (x / 256 ^ a) := by
  intro a
  induction a with
  | zero => intro x b; simp [bytesLE]
  | succ n ih =>
    intro x b
    rw [show n + 1 + b = (n + b) + 1 from by omega]
    show (x % 256) :: bytesLE (n + b) (x / 256)
        = bytesLE (n + 1) x ++ bytesLE b (x / 256 ^ (n + 1))
    rw [ih (x / 256) b, Nat.div_div_eq_div_mul, ← pow_succ']
    rfl

lemma bytesLE_congr : ∀ n x y, x % 256 ^ n = y % 256 ^ n → bytesLE n x = bytesLE n y := by
  intro n
  induction n with
  | zero => intro x y _; rfl
  | succ m ih =>
    intro x y h
    simp only [bytesLE, List.cons.injEq]
    have h1 : ∀ z : ℕ, z / 256 % 256 ^ m = z % (256 ^ (m + 1)) / 256 := by
      intro z
      rw [Nat.div_mod_eq_mod_mul_div, ← pow_succ']
    constructor
    · have hx := congrArg (· % 256) h
      simpa [Nat.mod_mod_of_dvd _ (dvd_pow_self 256 (Nat.succ_ne_zero m))] using hx
    · apply ih
      rw [h1 x, h1 y, h]

lemma bytesVal_bytesLE : ∀ n x, bytesVal (bytesLE n x) = x % 256 ^ n := by
  intro n
  induction n with
  | zero => intro x; simp [bytesLE, bytesVal, Nat.mod_one]
  | succ m ih =>
    intro x
    show x % 256 % 256 + 256 * bytesVal (bytesLE m (x / 256)) = x % 256 ^ (m + 1)
    rw [ih (x / 256), Nat.mod_mod_of_dvd x (dvd_refl 256),
      show (256 : ℕ) ^ (m + 1) = 256 * 256 ^ m from pow_succ' 256 m, Nat.mod_mul]

lemma bitMask_lt (d : ℕ) (x : ℤ) : bitMask d x < 2 ^ d := by
  unfold bitMask
  have h1 : x % (2 : ℤ) ^ d < (2 : ℤ) ^ d := Int.emod_lt_of_pos x (by positivity)
  have h2 : (0 : ℤ) ≤ x % (2 : ℤ) ^ d := Int.emod_nonneg x (by positivity)
  have h3 : ((2 : ℤ) ^ d) = ((2 ^ d : ℕ) : ℤ) := by push_cast; ring
  rw [h3] at h1
  omega

lemma natOfCoeffs_lt : ∀ cs, natOfCoeffs cs < 2 ^ (23 * cs.length) := by
  intro cs
  induction cs with
  | nil => simp [natOfCoeffs]
  | cons c cs ih =>
    simp only [natOfCoeffs, List.length_cons]
    have h1 := bitMask_lt 23 c
    have h2 : 2 ^ (23 * (cs.length + 1)) = 2 ^ 23 * 2 ^ (23 * cs.length) := by
      rw [← pow_add]; congr 1; omega
    rw [h2]
    nlinarith

lemma polyPackW_spec : ∀ cs v j, v < 2 ^ j → j < 8 → (j + 23 * cs.length) % 8 = 0 →
    polyPackW cs v j = bytesLE ((j + 23 * cs.length) / 8) (v + 2 ^ j * natOfCoeffs cs) := by
  intro cs
  induction cs with
  | nil =>
    intro v j hv hj hmod
    simp only [List.length_nil, Nat.mul_zero, Nat.add_zero] at hmod ⊢
    obtain rfl : j = 0 := by omega
    obtain rfl : v = 0 := by omega
    rfl
  | cons c cs ih =>
    intro v j hv hj hmod
    simp only [List.length_cons] at hmod
    simp only [polyPackW, List.length_cons]
    set q := (j + 23) / 8 with hq
    set j' := (j + 23) % 8 with hj'
    have hv' : v ||| (bitMask 23 c <<< j) = v + bitMask 23 c * 2 ^ j :=
      lor_shiftLeft_add hv
    rw [hv', emitBytes_spec]
    dsimp only
    have hmask := bitMask_lt 23 c
    have hvlt : v + bitMask 23 c * 2 ^ j < 2 ^ (j + 23) := by
      have : 2 ^ (j + 23) = 2 ^ 23 * 2 ^ j := by rw [← pow_add]; congr 1; omega
      nlinarith
    have h8q : 8 * q + j' = j + 23 := by omega
    have hrec : (v + bitMask 23 c * 2 ^ j) / 256 ^ q < 2 ^ j' := by
      rw [two_pow_256]
      apply Nat.div_lt_of_lt_mul
      calc v + bitMask 23 c * 2 ^ j < 2 ^ (j + 23) := hvlt
        _ = 2 ^ (8 * q) * 2 ^ j' := by rw [← pow_add]; congr 1; omega
    have hmod' : (j' + 23 * cs.length) % 8 = 0 := by omega
    rw [ih _ j' hrec (by omega) hmod']
    set X := v + 2 ^ j * (bitMask 23 c + 2 ^ 23 * natOfCoeffs cs) with hX
    have hXsplit : X = (v + bitMask 23 c * 2 ^ j) + 2 ^ (8 * q) * (2 ^ j' * natOfCoeffs cs) := by
      rw [hX]
      have : 2 ^ (8 * q) * 2 ^ j' = 2 ^ j * 2 ^ 23 := by
        rw [← pow_add, ← pow_add, h8q, Nat.add_comm j 23]
      nlinarith [this]
    have hlen : (j + 23 * (cs.length + 1)) / 8 = q + (j' + 23 * cs.length) / 8 := by
      omega
    rw [show natOfCoeffs (c :: cs) = bitMask 23 c + 2 ^ 23 * natOfCoeffs cs from rfl]
    rw [← hX, hlen, bytesLE_add]
    congr 1
    · apply bytesLE_congr
      rw [hXsplit, two_pow_256, Nat.add_mul_mod_self_left]
    · congr 1
      rw [hXsplit, two_pow_256, Nat.add_mul_div_left _ _ (pow_pos two_pos (8 * q))]

end PackLemmas

section UnpackLemmas

lemma unpackAbsorb_cons (d b : ℕ) (bs : List ℕ) (v j : ℕ) (h : j < d) :
    unpackAbsorb d (b :: bs) v j = unpackAbsorb d bs (v + (b % 256) <<< j) (j + 8) := by
  rw [unpackAbsorb.eq_def]
  dsimp only
  rw [dif_pos h]

lemma unpackAbsorb_done (d : ℕ) (bs : List ℕ) (v j : ℕ) (h : d ≤ j) :
    unpackAbsorb d bs v j = (v, j, bs) := by
  rw [unpackAbsorb.eq_def]
  dsimp only
  rw [dif_neg (Nat.not_lt.mpr h)]

lemma unpackAbsorb_spec : ∀ (k d : ℕ) (bs : List ℕ) (v j : ℕ), d - j ≤ k → v < 2 ^ j →
    j < d → d ≤ 8 * bs.length + j →
    ∃ v1 j1 bs1, unpackAbsorb d bs v j = (v1, j1, bs1) ∧
      v1 < 2 ^ j1 ∧ d ≤ j1 ∧ j1 < d + 8 ∧
      8 * bs1.length + j1 = 8 * bs.length + j ∧
      v1 + 2 ^ j1 * bytesVal bs1 = v + 2 ^ j * bytesVal bs := by
  intro k
  induction k with
  | zero =>
    intro d bs v j hk _ hjd _
    exact absurd hjd (by omega)
  | succ k ih =>
    intro d bs v j hk hv hjd hlen
    cases bs with
    | nil =>
      simp only [List.length_nil] at hlen
      exact absurd hjd (by omega)
    | cons b rest =>
      rw [unpackAbsorb_cons d b rest v j hjd]
      have hb : b % 256 < 256 := Nat.mod_lt _ (by norm_num)
      have hpow : (2 : ℕ) ^ (j + 8) = 2 ^ j * 256 := by rw [pow_add]; norm_num
      have hv1 : v + (b % 256) <<< j < 2 ^ (j + 8) := by
        rw [Nat.shiftLeft_eq, hpow]
        have h1 : (b % 256) * 2 ^ j ≤ 255 * 2 ^ j := Nat.mul_le_mul_right _ (by omega)
        have h2 : (0 : ℕ) < 2 ^ j := pow_pos (by norm_num) j
        nlinarith
      have hval1 : (v + (b % 256) <<< j) + 2 ^ (j + 8) * bytesVal rest
          = v + 2 ^ j * bytesVal (b :: rest) := by
        rw [Nat.shiftLeft_eq, hpow]
        show _ = v + 2 ^ j * (b % 256 + 256 * bytesVal rest)
        ring
      by_cases hd : j + 8 < d
      · obtain ⟨v1, j1, bs1, heq, h1, h2, h3, h4, h5⟩ :=
          ih d rest (v + (b % 256) <<< j) (j + 8) (by omega) hv1 hd
            (by simp only [List.length_cons] at hlen; omega)
        refine ⟨v1, j1, bs1, heq, h1, h2, by omega, ?_, ?_⟩
        · simp only [List.length_cons]
          omega
        · rw [h5]
          exact hval1
      · rw [unpackAbsorb_done d rest _ (j + 8) (by omega)]
        refine ⟨_, _, _, rfl, hv1, by omega, by omega, ?_, hval1⟩
        simp only [List.length_cons]
        omega

lemma polyUnpackWGo_ok : ∀ (n : ℕ) (cs : List ℤ) (v j : ℕ) (bs : List ℕ),
    cs.length = n →
    (∀ c ∈ cs, 0 ≤ c ∧ c < (Qn : ℤ)) →
    v < 2 ^ j → j < 8 →
    8 * bs.length + j = 23 * n →
    v + 2 ^ j * bytesVal bs = natOfCoeffs cs →
    polyUnpackWGo n bs v j = .ok cs := by
  intro n
  induction n with
  | zero =>
    intro cs v j bs hlen _ _ _ _ _
    rw [List.length_eq_zero] at hlen
    subst hlen
    rfl
  | succ m ih =>
    intro cs v j bs hlen hbound hv hj hblen hval
    cases cs with
    | nil => simp at hlen
    | cons c cs' =>
      obtain ⟨v1, j1, bs1, heq, hv1, hd1, hd2, hlen1, hval1⟩ :=
        unpackAbsorb_spec 23 23 bs v j (by omega) hv (by omega) (by omega)
      have hc := hbound c (List.mem_cons_self c cs')
      have hQn : Qn = 8380417 := rfl
      have hQz : (Qn : ℤ) = 8380417 := by norm_num [Qn]
      have hcmask : bitMask 23 c = c.toNat := by
        unfold bitMask
        rw [Int.emod_eq_of_lt hc.1
          (by rw [show ((2 : ℤ) ^ 23) = 8388608 from by norm_num]; omega)]
      have hclt : c.toNat < Qn := by omega
      have hmasklt := bitMask_lt 23 c
      have hsplit : (2 : ℕ) ^ j1 = 2 ^ 23 * 2 ^ (j1 - 23) := by
        rw [← pow_add]
        congr 1
        omega
      have hnat : natOfCoeffs (c :: cs') = bitMask 23 c + 2 ^ 23 * natOfCoeffs cs' := rfl
      have hkey : v1 + 2 ^ 23 * (2 ^ (j1 - 23) * bytesVal bs1)
          = bitMask 23 c + 2 ^ 23 * natOfCoeffs cs' := by
        rw [← mul_assoc, ← pow_add, show 23 + (j1 - 23) = j1 from by omega, hval1, hval, hnat]
      have hcoeff : v1 % 2 ^ 23 = bitMask 23 c := by
        have h1 : (v1 + 2 ^ 23 * (2 ^ (j1 - 23) * bytesVal bs1)) % 2 ^ 23 = v1 % 2 ^ 23 :=
          Nat.add_mul_mod_self_left v1 (2 ^ 23) _
        have h2 : (bitMask 23 c + 2 ^ 23 * natOfCoeffs cs') % 2 ^ 23 = bitMask 23 c := by
          rw [Nat.add_mul_mod_self_left, Nat.mod_eq_of_lt hmasklt]
        rw [← h1, hkey, h2]
      have hlen' : cs'.length = m := by
        simp only [List.length_cons] at hlen
        omega
      have hbound' : ∀ x ∈ cs', 0 ≤ x ∧ x < (Qn : ℤ) :=
        fun x hx => hbound x (List.mem_cons_of_mem c hx)
      have hv' : v1 >>> 23 < 2 ^ (j1 - 23) := by
        rw [Nat.shiftRight_eq_div_pow]
        have h2 : v1 < 2 ^ 23 * 2 ^ (j1 - 23) := by
          rw [← hsplit]
          exact hv1
        omega
      have hblen' : 8 * bs1.length + (j1 - 23) = 23 * m := by omega
      have hval' : v1 >>> 23 + 2 ^ (j1 - 23) * bytesVal bs1 = natOfCoeffs cs' := by
        rw [Nat.shiftRight_eq_div_pow]
        omega
      simp only [polyUnpackWGo, heq]
      rw [hcoeff, hcmask, if_neg (Nat.not_le.mpr hclt),
        ih cs' (v1 >>> 23) (j1 - 23) bs1 hlen' hbound' hv' (by omega) hblen' hval',
        Int.toNat_of_nonneg hc.1]

lemma polyUnpackW_bytesLE (cs : List ℤ) (h : cs.length = 256)
    (hb : ∀ c ∈ cs, 0 ≤ c ∧ c < (Qn : ℤ)) :
    polyUnpackW (bytesLE POLY_Q_SIZE (natOfCoeffs cs)) = .ok cs := by
  unfold polyUnpackW
  apply polyUnpackWGo_ok 256 cs 0 0 _ h hb (by norm_num) (by norm_num)
  · rw [bytesLE_length]
    rfl
  · show (0 : ℕ) + 2 ^ 0 * bytesVal (bytesLE POLY_Q_SIZE (natOfCoeffs cs)) = natOfCoeffs cs
    rw [bytesVal_bytesLE, two_pow_256,
      show 8 * POLY_Q_SIZE = 23 * cs.length from by rw [h]; rfl,
      Nat.mod_eq_of_lt (natOfCoeffs_lt cs)]
    ring

lemma flatten_map_flatten {α : Type} : ∀ (L : List (List (List α))),
    (L.map List.flatten).flatten = L.flatten.flatten := by
  intro L
  induction L with
  | nil => rfl
  | cons a L ih =>
    simp only [List.map_cons, List.flatten_cons, List.flatten_append, ih]

lemma flatten_length_uniform {α : Type} : ∀ (L : List (List α)) (d : ℕ),
    (∀ x ∈ L, x.length = d) → L.flatten.length = L.length * d := by
  intro L d
  induction L with
  | nil => intro _; simp
  | cons a L ih =>
    intro h
    simp only [List.flatten_cons, List.length_append, List.length_cons]
    rw [h a (List.mem_cons_self a L), ih (fun x hx => h x (List.mem_cons_of_mem a hx))]
    ring

lemma flatten_sliceAt : ∀ (B : List (List ℕ)) (i : ℕ),
    (∀ b ∈ B, b.length = POLY_Q_SIZE) → i < B.length →
    sliceAt B.flatten i = B.getD i [] := by
  intro B
  induction B with
  | nil =>
    intro i _ hi
    simp at hi
  | cons b B ih =>
    intro i hlen hi
    have hb : b.length = POLY_Q_SIZE := hlen b (List.mem_cons_self b B)
    cases i with
    | zero =>
      unfold sliceAt
      simp only [Nat.zero_mul, List.drop_zero, List.flatten_cons, List.getD_cons_zero]
      rw [← hb, List.take_left]
    | succ k =>
      have hdrop : (b :: B).flatten.drop ((k + 1) * POLY_Q_SIZE)
          = B.flatten.drop (k * POLY_Q_SIZE) := by
        simp only [List.flatten_cons]
        rw [show (k + 1) * POLY_Q_SIZE = POLY_Q_SIZE + k * POLY_Q_SIZE from by ring,
          ← List.drop_drop, ← hb, List.drop_left]
      unfold sliceAt
      rw [hdrop, List.getD_cons_succ]
      exact ih k (fun x hx => hlen x (List.mem_cons_of_mem b hx)) (by simpa using hi)

lemma getD_append_add {α : Type} (dflt : α) : ∀ (l1 l2 : List α) (n : ℕ),
    (l1 ++ l2).getD (l1.length + n) dflt = l2.getD n dflt := by
  intro l1
  induction l1 with
  | nil => intro l2 n; simp
  | cons x l1 ih =>
    intro l2 n
    simp only [List.cons_append, List.length_cons]
    rw [show l1.length + 1 + n = (l1.length + n) + 1 from by omega, List.getD_cons_succ]
    exact ih l2 n

lemma flatten_getD_uniform {α : Type} (dflt : α) : ∀ (L : List (List α)) (d i j : ℕ),
    (∀ x ∈ L, x.length = d) → i < L.length → j < d →
    L.flatten.getD (i * d + j) dflt = (L.getD i []).getD j dflt := by
  intro L
  induction L with
  | nil =>
    intro d i j _ hi _
    simp at hi
  | cons a L ih =>
    intro d i j h hi hj
    have ha : a.length = d := h a (List.mem_cons_self a L)
    cases i with
    | zero =>
      simp only [List.flatten_cons, Nat.zero_mul, Nat.zero_add, List.getD_cons_zero]
      have hj' : j < a.length := by omega
      rw [List.getD_eq_getElem _ _ (by simp only [List.length_append]; omega),
        List.getD_eq_getElem _ _ hj']
      exact List.getElem_append_left hj'
    | succ k =>
      simp only [List.flatten_cons, List.getD_cons_succ]
      rw [show (k + 1) * d + j = a.length + (k * d + j) from by rw [ha]; ring,
        getD_append_add dflt a L.flatten (k * d + j)]
      exact ih d k j (fun x hx => h x (List.mem_cons_of_mem a hx)) (by simpa using hi) hj

lemma getD_map_range {α : Type} (dflt : α) (n : ℕ) (g : ℕ → α) (j : ℕ) (h : j < n) :
    ((List.range n).map g).getD j dflt = g j := by
  rw [List.getD_eq_getElem _ _ (by simpa using h)]
  simp

lemma unpackRow_ok (buf : List ℕ) : ∀ (row : List (List ℤ)) (idx : ℕ),
    (∀ k, k < row.length → polyUnpackW (sliceAt buf (idx + k)) = .ok (row.getD k [])) →
    unpackRow buf idx row.length = .ok row := by
  intro row
  induction row with
  | nil => intro idx _; rfl
  | cons p row ih =>
    intro idx h
    have h0 := h 0 (by simp)
    simp only [Nat.add_zero, List.getD_cons_zero] at h0
    have hrec : unpackRow buf (idx + 1) row.length = .ok row := by
      apply ih
      intro k hk
      have hx := h (k + 1) (by simp only [List.length_cons]; omega)
      rwa [show idx + (k + 1) = idx + 1 + k from by omega, List.getD_cons_succ] at hx
    show unpackRow buf idx (row.length + 1) = .ok (p :: row)
    simp only [unpackRow]
    rw [h0, hrec]

lemma unpackIters_ok (buf : List ℕ) (dim : ℕ) : ∀ (rows : List (List (List ℤ))) (idx : ℕ),
    (∀ i, i < rows.length → unpackRow buf (idx + i * dim) dim = .ok (rows.getD i [])) →
    unpackIters buf dim idx rows.length = .ok rows := by
  intro rows
  induction rows with
  | nil => intro idx _; rfl
  | cons r rows ih =>
    intro idx h
    have h0 := h 0 (by simp)
    simp only [Nat.zero_mul, Nat.add_zero, List.getD_cons_zero] at h0
    have hrec : unpackIters buf dim (idx + dim) rows.length = .ok rows := by
      apply ih
      intro i hi
      have hx := h (i + 1) (by simp only [List.length_cons]; omega)
      rwa [show idx + (i + 1) * dim = idx + dim + i * dim from by ring,
        List.getD_cons_succ] at hx
    show unpackIters buf dim idx (rows.length + 1) = .ok (r :: rows)
    simp only [unpackIters]
    rw [h0, hrec]

end UnpackLemmas

section DecomposeHintLemmas

lemma gamma2_one_eq : GAMMA2_1 = 95232 := by norm_num [GAMMA2_1, Q]

lemma gamma2_two_eq : GAMMA2_2 = 261888 := by norm_num [GAMMA2_2, Q]

lemma decompose_props (γ2 : ℤ) (hγ : γ2 = GAMMA2_1 ∨ γ2 = GAMMA2_2) (r : ℤ)
    (hr0 : 0 ≤ r) (hr1 : r < Q) :
    (2 * γ2 * (decompose γ2 r).1 + (decompose γ2 r).2 = r ∧
      -γ2 < (decompose γ2 r).2 ∧ (decompose γ2 r).2 ≤ γ2 ∧
      0 ≤ (decompose γ2 r).1 ∧ 2 * γ2 * ((decompose γ2 r).1 + 1) ≤ Q - 1) ∨
    ((decompose γ2 r).1 = 0 ∧ r = Q + (decompose γ2 r).2 ∧
      -γ2 ≤ (decompose γ2 r).2 ∧ (decompose γ2 r).2 ≤ -1) := by
  have hQ : Q = (8380417 : ℤ) := rfl
  rcases hγ with rfl | rfl
  · rw [gamma2_one_eq]
    simp only [decompose, mod, smod, hQ] at hr1 ⊢
    split_ifs <;> dsimp only <;> omega
  · rw [gamma2_two_eq]
    simp only [decompose, mod, smod, hQ] at hr1 ⊢
    split_ifs <;> dsimp only <;> omega

lemma mod_sub_smod (x a : ℤ) : mod (x - smod a) = mod (x - a) := by
  simp only [mod, smod, show Q = (8380417 : ℤ) from rfl]
  split_ifs <;> omega

lemma mod_add_smod (x a : ℤ) : mod (x + smod a) = mod (x + a) := by
  simp only [mod, smod, show Q = (8380417 : ℤ) from rfl]
  split_ifs <;> omega

lemma smod_small (a : ℤ) (h1 : -(Q / 2) ≤ a) (h2 : a ≤ Q / 2) : smod a = a := by
  simp only [smod, mod, show Q = (8380417 : ℤ) from rfl] at *
  split_ifs <;> omega

lemma gamma2_le (γ2 : ℤ) (hγ : γ2 = GAMMA2_1 ∨ γ2 = GAMMA2_2) :
    0 < γ2 ∧ γ2 ≤ 261888 := by
  rcases hγ with rfl | rfl
  · rw [gamma2_one_eq]
    norm_num
  · rw [gamma2_two_eq]
    norm_num

set_option maxHeartbeats 3200000 in
lemma hide_low_core (γ2 β : ℤ) (hγ : γ2 = GAMMA2_1 ∨ γ2 = GAMMA2_2)
    (hβ0 : 0 ≤ β) (hβγ : β < γ2)
    (vc s2 : ℤ) (hvc0 : 0 ≤ vc) (hvc1 : vc < Q)
    (hs1 : -β ≤ s2) (hs2 : s2 ≤ β)
    (hr0 : |smod (LowBits γ2 (mod (vc - s2)))| < γ2 - β) :
    HighBits γ2 vc = HighBits γ2 (mod (vc - s2)) := by
  have hQpos : (0 : ℤ) < Q := by norm_num [Q]
  have hγle := gamma2_le γ2 hγ
  have hv0 : 0 ≤ mod (vc - s2) := Int.emod_nonneg _ (ne_of_gt hQpos)
  have hv1 : mod (vc - s2) < Q := Int.emod_lt_of_pos _ hQpos
  have key : vc - mod (vc - s2) - s2 = 0 ∨ vc - mod (vc - s2) - s2 = -Q ∨
      vc - mod (vc - s2) - s2 = Q := by
    simp only [mod, show Q = (8380417 : ℤ) from rfl] at *
    omega
  have pv := decompose_props γ2 hγ vc hvc0 hvc1
  have pw := decompose_props γ2 hγ (mod (vc - s2)) hv0 hv1
  simp only [HighBits, LowBits] at hr0 pv pw ⊢
  set v := mod (vc - s2) with hvdef
  clear hvdef
  clear_value v
  have hf : -γ2 ≤ (decompose γ2 v).2 ∧ (decompose γ2 v).2 ≤ γ2 := by
    rcases pw with ⟨_, h2, h3, _⟩ | ⟨_, _, h3, h4⟩
    · exact ⟨le_of_lt h2, h3⟩
    · exact ⟨h3, by omega⟩
  rw [smod_small _ (by rw [show Q = (8380417 : ℤ) from rfl] at *; omega)
    (by rw [show Q = (8380417 : ℤ) from rfl] at *; omega)] at hr0
  rw [abs_lt] at hr0
  have hQ : Q = (8380417 : ℤ) := rfl
  rcases hγ with rfl | rfl
  · rw [gamma2_one_eq] at pv pw hr0 hβγ ⊢
    rw [hQ] at key pv pw hv1 hvc1
    rcases pv with pv | pv <;> rcases pw with pw | pw <;> omega
  · rw [gamma2_two_eq] at pv pw hr0 hβγ ⊢
    rw [hQ] at key pv pw hv1 hvc1
    rcases pv with pv | pv <;> rcases pw with pw | pw <;> omega

set_option maxHeartbeats 3200000 in
lemma useHint_makeHint_core (γ2 : ℤ) (hγ : γ2 = GAMMA2_1 ∨ γ2 = GAMMA2_2)
    (v t : ℤ) (hv0 : 0 ≤ v) (hv1 : v < Q)
    (hr0 : |smod (LowBits γ2 v)| < γ2)
    (ht1 : -γ2 < t) (ht2 : t < γ2) :
    UseHint γ2 (MakeHint γ2 (mod (LowBits γ2 v + t)) (HighBits γ2 v)) (mod (v + t))
      = HighBits γ2 v := by
  have hQpos : (0 : ℤ) < Q := by norm_num [Q]
  have hγle := gamma2_le γ2 hγ
  have hx0 : 0 ≤ mod (v + t) := Int.emod_nonneg _ (ne_of_gt hQpos)
  have hx1 : mod (v + t) < Q := Int.emod_lt_of_pos _ hQpos
  have keyx : mod (v + t) - v - t = 0 ∨ mod (v + t) - v - t = -Q ∨
      mod (v + t) - v - t = Q := by
    simp only [mod, show Q = (8380417 : ℤ) from rfl] at *
    omega
  have pw := decompose_props γ2 hγ v hv0 hv1
  have px := decompose_props γ2 hγ (mod (v + t)) hx0 hx1
  simp only [HighBits, LowBits] at hr0 pw px ⊢
  have hf : -γ2 ≤ (decompose γ2 v).2 ∧ (decompose γ2 v).2 ≤ γ2 := by
    rcases pw with ⟨_, h2, h3, _⟩ | ⟨_, _, h3, h4⟩
    · exact ⟨le_of_lt h2, h3⟩
    · exact ⟨h3, by omega⟩
  have hz0 : 0 ≤ mod ((decompose γ2 v).2 + t) := Int.emod_nonneg _ (ne_of_gt hQpos)
  have hz1 : mod ((decompose γ2 v).2 + t) < Q := Int.emod_lt_of_pos _ hQpos
  have keyz : mod ((decompose γ2 v).2 + t) - (decompose γ2 v).2 - t = 0 ∨
      mod ((decompose γ2 v).2 + t) - (decompose γ2 v).2 - t = -Q ∨
      mod ((decompose γ2 v).2 + t) - (decompose γ2 v).2 - t = Q := by
    simp only [mod, show Q = (8380417 : ℤ) from rfl] at *
    omega
  rw [smod_small _ (by rw [show Q = (8380417 : ℤ) from rfl] at *; omega)
    (by rw [show Q = (8380417 : ℤ) from rfl] at *; omega)] at hr0
  rw [abs_lt] at hr0
  simp only [UseHint, MakeHint]
  set x := mod (v + t) with hxdef
  clear hxdef
  clear_value x
  set z := mod ((decompose γ2 v).2 + t) with hzdef
  clear hzdef
  clear_value z
  have hQ : Q = (8380417 : ℤ) := rfl
  rcases hγ with rfl | rfl
  · rw [gamma2_one_eq] at pw px hr0 ht1 ht2 keyz hf ⊢
    rw [hQ] at keyx keyz pw px hv1 hx1 hz1
    simp only [hQ, mod]
    rcases pw with pw | pw <;> rcases px with px | px <;>
      split_ifs <;> omega
  · rw [gamma2_two_eq] at pw px hr0 ht1 ht2 keyz hf ⊢
    rw [hQ] at keyx keyz pw px hv1 hx1 hz1
    simp only [hQ, mod]
    rcases pw with pw | pw <;> rcases px with px | px <;>
      split_ifs <;> omega

lemma hint_coeff (γ2 β : ℤ) (hγ : γ2 = GAMMA2_1 ∨ γ2 = GAMMA2_2)
    (hβ0 : 0 ≤ β) (hβγ : β < γ2)
    (vc sc tc : ℤ) (hvc0 : 0 ≤ vc) (hvc1 : vc < Q)
    (hsc : |smod sc| ≤ β)
    (hr0 : |smod (LowBits γ2 (mod (vc - sc)))| < γ2 - β)
    (htc : |smod tc| < γ2) :
    UseHint γ2
      (MakeHint γ2 (mod (LowBits γ2 (mod (vc - sc)) + tc)) (HighBits γ2 vc))
      (mod (vc - sc + tc)) = HighBits γ2 vc := by
  have hQpos : (0 : ℤ) < Q := by norm_num [Q]
  have hsub : mod (vc - smod sc) = mod (vc - sc) := mod_sub_smod vc sc
  rw [abs_le] at hsc
  rw [abs_lt] at htc
  have hA : HighBits γ2 vc = HighBits γ2 (mod (vc - sc)) := by
    rw [← hsub] at hr0 ⊢
    exact hide_low_core γ2 β hγ hβ0 hβγ vc (smod sc) hvc0 hvc1 hsc.1 hsc.2 hr0
  have hv0 : 0 ≤ mod (vc - sc) := Int.emod_nonneg _ (ne_of_gt hQpos)
  have hv1 : mod (vc - sc) < Q := Int.emod_lt_of_pos _ hQpos
  have hr0w : |smod (LowBits γ2 (mod (vc - sc)))| < γ2 := by
    have h2 := abs_lt.mp hr0
    rw [abs_lt]
    omega
  have hB := useHint_makeHint_core γ2 hγ (mod (vc - sc)) (smod tc) hv0 hv1 hr0w htc.1 htc.2
  rw [mod_add_smod (LowBits γ2 (mod (vc - sc))) tc,
    mod_add_smod (mod (vc - sc)) tc] at hB
  have hmm : mod (mod (vc - sc) + tc) = mod (vc - sc + tc) := by
    simp only [mod]
    rw [Int.emod_add_emod]
  rw [hmm] at hB
  rw [hA]
  exact hB

end DecomposeHintLemmas

section NTTAlgebra

set_option maxRecDepth 4000 in
lemma zetaQ_pow_256 : zetaQ ^ 256 = -1 := by decide

lemma zetaQ_pow_512 : zetaQ ^ 512 = 1 := by
  rw [show (512 : ℕ) = 256 * 2 from rfl, pow_mul, zetaQ_pow_256]
  norm_num

lemma zetaQ_ne_zero : zetaQ ≠ 0 := by decide

lemma FQ_mul_256 : FQ * 256 = 1 := by decide

lemma zetaQ_orderOf : orderOf zetaQ = 512 := by
  have hd512 : orderOf zetaQ ∣ 512 := orderOf_dvd_of_pow_eq_one zetaQ_pow_512
  have hnot : ¬ orderOf zetaQ ∣ 256 := by
    intro h
    have h2 := orderOf_dvd_iff_pow_eq_one.mp h
    rw [zetaQ_pow_256] at h2
    exact absurd h2 (by decide)
  rw [show (512 : ℕ) = 2 ^ 9 from rfl] at hd512
  obtain ⟨k, hk9, hdk⟩ := (Nat.dvd_prime_pow Nat.prime_two).mp hd512
  have hk9e : k = 9 := by
    by_contra hk
    exact hnot (by
      rw [hdk, show (256 : ℕ) = 2 ^ 8 from rfl]
      exact pow_dvd_pow 2 (by omega))
  rw [hdk, hk9e]
  norm_num

lemma zetaQ_pow_nat_dvd (n : ℕ) (h : zetaQ ^ n = 1) : 512 ∣ n := by
  have h2 := orderOf_dvd_of_pow_eq_one h
  rwa [zetaQ_orderOf] at h2

lemma zetaQ_zpow_eq_one_iff (m : ℤ) : zetaQ ^ m = 1 ↔ (512 : ℤ) ∣ m := by
  constructor
  · intro h
    rcases Int.natAbs_eq m with he | he
    · rw [he, zpow_natCast] at h
      rw [he]
      exact_mod_cast Int.natCast_dvd_natCast.mpr (zetaQ_pow_nat_dvd _ h)
    · rw [he, zpow_neg, zpow_natCast, inv_eq_one] at h
      rw [he, dvd_neg]
      exact_mod_cast Int.natCast_dvd_natCast.mpr (zetaQ_pow_nat_dvd _ h)
  · rintro ⟨c, rfl⟩
    rw [zpow_mul]
    rw [show ((512 : ℤ)) = ((512 : ℕ) : ℤ) from rfl, zpow_natCast, zetaQ_pow_512, one_zpow]

lemma sum_pow_eq_zero (u : ZMod Qn) (h256 : u ^ 256 = 1) (hne : u ≠ 1) :
    ∑ j : Fin 256, u ^ (j : ℕ) = 0 := by
  rw [Fin.sum_univ_eq_sum_range (fun n => u ^ n) 256, geom_sum_eq hne, h256]
  simp

set_option maxRecDepth 8000 in
lemma brv_lt : ∀ i : Fin 256, brv i.val < 256 := by decide

set_option maxRecDepth 8000 in
lemma brv_invol : ∀ i : Fin 256, brv (brv i.val) = i.val := by decide

lemma brv_inj {i t : Fin 256} (h : i ≠ t) : brv i.val ≠ brv t.val := by
  intro he
  apply h
  apply Fin.ext
  rw [← brv_invol i, ← brv_invol t, he]

lemma inner_orthogonal (t i : Fin 256) :
    ∑ j : Fin 256, zetaQ ^ ((2 * brv t.val + 1) * j.val) *
      zetaQ ^ (-(((2 * brv i.val + 1) * j.val : ℕ) : ℤ))
    = if i = t then (256 : ZMod Qn) else 0 := by
  have hz := zetaQ_ne_zero
  have hterm : ∀ j : Fin 256, zetaQ ^ ((2 * brv t.val + 1) * j.val) *
      zetaQ ^ (-(((2 * brv i.val + 1) * j.val : ℕ) : ℤ))
      = (zetaQ ^ (2 * (brv t.val : ℤ) - 2 * brv i.val)) ^ (j.val) := by
    intro j
    rw [← zpow_natCast zetaQ ((2 * brv t.val + 1) * j.val), ← zpow_add₀ hz,
      ← zpow_natCast (zetaQ ^ (2 * (brv t.val : ℤ) - 2 * brv i.val)) j.val, ← zpow_mul]
    congr 1
    push_cast
    ring
  rw [Finset.sum_congr rfl (fun j _ => hterm j)]
  by_cases hit : i = t
  · subst hit
    rw [if_pos rfl]
    rw [show 2 * (brv i.val : ℤ) - 2 * brv i.val = 0 from by ring, zpow_zero]
    simp only [one_pow]
    rw [Finset.sum_const, Finset.card_univ, Fintype.card_fin, nsmul_eq_mul, mul_one]
    norm_num
  · rw [if_neg hit]
    apply sum_pow_eq_zero
    · rw [← zpow_natCast (zetaQ ^ (2 * (brv t.val : ℤ) - 2 * brv i.val)) 256, ← zpow_mul,
        zetaQ_zpow_eq_one_iff]
      exact ⟨(brv t.val : ℤ) - brv i.val, by push_cast; ring⟩
    · intro hu
      rw [zetaQ_zpow_eq_one_iff] at hu
      obtain ⟨c, hc⟩ := hu
      have hbt := brv_lt t
      have hbi := brv_lt i
      have hne2 : brv i.val ≠ brv t.val := brv_inj (fun he => hit (he ▸ rfl))
      omega

theorem nttMat_inttMat (v : PolyR) : nttMat (inttMat v) = v := by
  funext t
  show ∑ j : Fin 256, zetaQ ^ ((2 * brv t.val + 1) * j.val) *
      (FQ * ∑ i : Fin 256, zetaQ ^ (-(((2 * brv i.val + 1) * j.val : ℕ) : ℤ)) * v i) = v t
  have step1 : ∀ j : Fin 256, zetaQ ^ ((2 * brv t.val + 1) * j.val) *
      (FQ * ∑ i : Fin 256, zetaQ ^ (-(((2 * brv i.val + 1) * j.val : ℕ) : ℤ)) * v i)
      = ∑ i : Fin 256, FQ * (zetaQ ^ ((2 * brv t.val + 1) * j.val) *
          zetaQ ^ (-(((2 * brv i.val + 1) * j.val : ℕ) : ℤ)) * v i) := by
    intro j
    rw [Finset.mul_sum, Finset.mul_sum]
    apply Finset.sum_congr rfl
    intro i _
    ring
  rw [Finset.sum_congr rfl (fun j _ => step1 j), Finset.sum_comm]
  have step2 : ∀ i : Fin 256, ∑ j : Fin 256, FQ * (zetaQ ^ ((2 * brv t.val + 1) * j.val) *
      zetaQ ^ (-(((2 * brv i.val + 1) * j.val : ℕ) : ℤ)) * v i)
      = FQ * ((if i = t then (256 : ZMod Qn) else 0) * v i) := by
    intro i
    rw [← Finset.mul_sum, ← Finset.sum_mul, inner_orthogonal t i]
  rw [Finset.sum_congr rfl (fun i _ => step2 i)]
  have step3 : ∀ i : Fin 256, FQ * ((if i = t then (256 : ZMod Qn) else 0) * v i)
      = if i = t then FQ * 256 * v i else 0 := by
    intro i
    split_ifs <;> ring
  rw [Finset.sum_congr rfl (fun i _ => step3 i), Finset.sum_ite_eq' Finset.univ t
    (fun i => FQ * 256 * v i), if_pos (Finset.mem_univ t), FQ_mul_256, one_mul]

theorem inttMat_nttMat (p : PolyR) : inttMat (nttMat p) = p := by
  have hinj : Function.Injective nttMat :=
    Finite.injective_iff_surjective.mpr (fun v => ⟨inttMat v, nttMat_inttMat v⟩)
  apply hinj
  rw [nttMat_inttMat]

lemma sum_mul_add (g p q : Fin 256 → ZMod Qn) :
    ∑ i : Fin 256, g i * (p i + q i)
      = (∑ i : Fin 256, g i * p i) + ∑ i : Fin 256, g i * q i := by
  rw [← Finset.sum_add_distrib]
  apply Finset.sum_congr rfl
  intro i _
  ring

lemma sum_mul_sub (g p q : Fin 256 → ZMod Qn) :
    ∑ i : Fin 256, g i * (p i - q i)
      = (∑ i : Fin 256, g i * p i) - ∑ i : Fin 256, g i * q i := by
  rw [← Finset.sum_sub_distrib]
  apply Finset.sum_congr rfl
  intro i _
  ring

lemma sum_mul_smul (a : ZMod Qn) (g p : Fin 256 → ZMod Qn) :
    ∑ i : Fin 256, g i * (a * p i) = a * ∑ i : Fin 256, g i * p i := by
  rw [Finset.mul_sum]
  apply Finset.sum_congr rfl
  intro i _
  ring

lemma mul_sum_mul_add (F : ZMod Qn) (g p q : Fin 256 → ZMod Qn) :
    F * ∑ i : Fin 256, g i * (p i + q i)
      = F * (∑ i : Fin 256, g i * p i) + F * ∑ i : Fin 256, g i * q i := by
  rw [sum_mul_add]
  ring

lemma nttMat_add (p q : PolyR) :
    nttMat (fun c => p c + q c) = fun c => nttMat p c + nttMat q c := by
  funext t
  exact sum_mul_add (fun j => zetaQ ^ ((2 * brv t.val + 1) * j.val)) p q

lemma inttMat_add (p q : PolyR) :
    inttMat (fun c => p c + q c) = fun c => inttMat p c + inttMat q c := by
  funext t
  exact mul_sum_mul_add FQ
    (fun i => zetaQ ^ (-(((2 * brv i.val + 1) * t.val : ℕ) : ℤ))) p q

lemma nttMat_sub (p q : PolyR) :
    nttMat (fun c => p c - q c) = fun c => nttMat p c - nttMat q c := by
  funext t
  exact sum_mul_sub (fun j => zetaQ ^ ((2 * brv t.val + 1) * j.val)) p q

lemma nttMat_smul (a : ZMod Qn) (p : PolyR) :
    nttMat (fun c => a * p c) = fun c => a * nttMat p c := by
  funext t
  exact sum_mul_smul a (fun j => zetaQ ^ ((2 * brv t.val + 1) * j.val)) p

end NTTAlgebra

section ValBridgeLemmas

lemma val_cast_eq_mod (x : ℤ) : (((x : ZMod Qn)).val : ℤ) = mod x := by
  rw [ZMod.val_intCast]
  norm_num [mod, Q, Qn]

lemma intCast_val_cast (a : ZMod Qn) : ((a.val : ℤ) : ZMod Qn) = a := by
  rw [Int.cast_natCast, ZMod.natCast_val, ZMod.cast_id]

lemma pval_sub (a b : ZMod Qn) :
    (((a - b).val : ℤ)) = mod ((a.val : ℤ) - (b.val : ℤ)) := by
  have h : ((((a.val : ℤ) - (b.val : ℤ) : ℤ) : ZMod Qn)) = a - b := by
    rw [Int.cast_sub, intCast_val_cast, intCast_val_cast]
  rw [← h, val_cast_eq_mod]

lemma pval_sub_add (a b c : ZMod Qn) :
    (((a - b + c).val : ℤ)) = mod ((a.val : ℤ) - (b.val : ℤ) + (c.val : ℤ)) := by
  have h : ((((a.val : ℤ) - (b.val : ℤ) + (c.val : ℤ) : ℤ) : ZMod Qn)) = a - b + c := by
    rw [Int.cast_add, Int.cast_sub, intCast_val_cast, intCast_val_cast, intCast_val_cast]
  rw [← h, val_cast_eq_mod]

lemma pval_nonneg (a : ZMod Qn) : (0 : ℤ) ≤ (a.val : ℤ) := Int.natCast_nonneg _

lemma pval_lt_Q (a : ZMod Qn) : ((a.val : ℤ)) < Q := by
  have h : a.val < Qn := ZMod.val_lt a
  have h2 : a.val < 8380417 := h
  have h3 : ((a.val : ℤ)) < ((8380417 : ℕ) : ℤ) := by exact_mod_cast h2
  norm_num [Q] at h3 ⊢
  exact h3

lemma smod_mod (a : ℤ) : smod (mod a) = smod a := by
  simp only [smod, mod]
  rw [Int.emod_emod_of_dvd a (dvd_refl Q)]

lemma makeHint_nonneg (γ2 z r : ℤ) : 0 ≤ MakeHint γ2 z r := by
  simp only [MakeHint]
  split_ifs <;> norm_num

lemma power2Round_recon (r : ℤ) :
    2 ^ Dbits * (Power2Round r).1 + (Power2Round r).2 = mod r := by
  simp only [Power2Round]
  rw [Int.mul_ediv_cancel' (dvd_self_sub_smod (mod r) (2 ^ Dbits))]
  ring

lemma castZ_zero : castZ (fun _ => (0 : ℤ)) = (0 : PolyR) := by
  funext c
  simp [castZ]

lemma nttMat_zero : nttMat (0 : PolyR) = 0 := by
  funext t
  simp [nttMat]

lemma inttMat_zero : inttMat (0 : PolyR) = 0 := by
  funext t
  simp [inttMat]

lemma pMul_zero_left (b : PolyR) : pMul 0 b = 0 := by
  funext c
  simp [pMul]

lemma pMul_zero_right (a : PolyR) : pMul a 0 = 0 := by
  funext c
  simp [pMul]

end ValBridgeLemmas

section ConvolutionLemmas

lemma fin_add_val (i j : Fin 256) : ((i + j : Fin 256) : ℕ) = (i.val + j.val) % 256 :=
  Fin.val_add i j

lemma fin_sub_val (k i : Fin 256) : ((k - i : Fin 256) : ℕ) = (256 - i.val + k.val) % 256 := by
  rw [Fin.sub_def]

lemma castZ_intNcMul (a b : Fin 256 → ℤ) (k : Fin 256) :
    castZ (intNcMul a b) k
      = ∑ i : Fin 256,
          ((a i : ℤ) : ZMod Qn) *
            (if h : (i : ℕ) ≤ (k : ℕ) then ((b ⟨(k : ℕ) - i, by omega⟩ : ℤ) : ZMod Qn)
             else -((b ⟨(k : ℕ) + 256 - i, by omega⟩ : ℤ) : ZMod Qn)) := by
  show ((intNcMul a b k : ℤ) : ZMod Qn) = _
  simp only [intNcMul]
  rw [Int.cast_sum]
  refine Finset.sum_congr rfl fun i _ => ?_
  rw [Int.cast_mul]
  congr 1
  by_cases h : (i : ℕ) ≤ (k : ℕ)
  · rw [dif_pos h, dif_pos h]
  · rw [dif_neg h, dif_neg h, Int.cast_neg]

lemma nttMat_castZ_intNcMul (a b : Fin 256 → ℤ) :
    nttMat (castZ (intNcMul a b)) = pMul (nttMat (castZ a)) (nttMat (castZ b)) := by
  funext t
  show ∑ k : Fin 256, zetaQ ^ ((2 * brv t.val + 1) * k.val) * castZ (intNcMul a b) k
      = (∑ i : Fin 256, zetaQ ^ ((2 * brv t.val + 1) * i.val) * castZ a i)
        * ∑ j : Fin 256, zetaQ ^ ((2 * brv t.val + 1) * j.val) * castZ b j
  simp only [castZ_intNcMul]
  simp only [castZ]
  rw [Finset.sum_mul_sum]
  generalize he : 2 * brv t.val + 1 = e
  have hodd : Odd e := ⟨brv t.val, by omega⟩
  simp only [Finset.mul_sum]
  rw [Finset.sum_comm]
  refine Finset.sum_congr rfl fun i _ => ?_
  refine (Fintype.sum_equiv (Equiv.addLeft i) _ _ fun j => ?_).symm
  simp only [Equiv.coe_addLeft]
  rcases lt_or_ge (i.val + j.val) 256 with hlt | hge
  · have hval : ((i + j : Fin 256) : ℕ) = i.val + j.val := by
      rw [fin_add_val]
      omega
    have hcond : (i : ℕ) ≤ ((i + j : Fin 256) : ℕ) := by omega
    rw [dif_pos hcond]
    simp only [hval, show i.val + j.val - i.val = j.val from by omega, Fin.eta]
    rw [mul_add, pow_add]
    ring
  · have hj := j.isLt
    have hval : ((i + j : Fin 256) : ℕ) = i.val + j.val - 256 := by
      rw [fin_add_val]
      omega
    have hcond : ¬ ((i : ℕ) ≤ ((i + j : Fin 256) : ℕ)) := by omega
    rw [dif_neg hcond]
    simp only [hval, show i.val + j.val - 256 + 256 - i.val = j.val from by omega, Fin.eta]
    have hzeta : zetaQ ^ (e * i.val) * zetaQ ^ (e * j.val)
        = -(zetaQ ^ (e * (i.val + j.val - 256))) := by
      have h3 : i.val + j.val - 256 + 256 = i.val + j.val := by omega
      have h2 : e * i.val + e * j.val = e * (i.val + j.val - 256) + 256 * e := by
        calc e * i.val + e * j.val = e * (i.val + j.val) := by ring
          _ = e * (i.val + j.val - 256 + 256) := by rw [h3]
          _ = e * (i.val + j.val - 256) + 256 * e := by ring
      rw [← pow_add, h2, pow_add, pow_mul zetaQ 256 e, zetaQ_pow_256, Odd.neg_one_pow hodd]
      ring
    linear_combination (((a i : ℤ) : ZMod Qn) * ((b j : ℤ) : ZMod Qn)) * hzeta

lemma inttMat_pMul_castZ (a b : Fin 256 → ℤ) :
    inttMat (pMul (nttMat (castZ a)) (nttMat (castZ b))) = castZ (intNcMul a b) := by
  rw [← nttMat_castZ_intNcMul, inttMat_nttMat]

lemma intNcMul_abs_le (a b : Fin 256 → ℤ) (η τ : ℤ)
    (ha : ∀ i, |a i| ≤ η) (hb : (∑ j : Fin 256, |b j|) ≤ τ) (k : Fin 256) :
    |intNcMul a b k| ≤ η * τ := by
  have hη : 0 ≤ η := le_trans (abs_nonneg _) (ha ⟨0, by norm_num⟩)
  have habs : ∀ i : Fin 256,
      |a i * (if h : (i : ℕ) ≤ (k : ℕ) then b ⟨(k : ℕ) - i, by omega⟩
        else -b ⟨(k : ℕ) + 256 - i, by omega⟩)| ≤ η * |b (k - i)| := by
    intro i
    rw [abs_mul]
    have hD : |(if h : (i : ℕ) ≤ (k : ℕ) then b ⟨(k : ℕ) - i, by omega⟩
        else -b ⟨(k : ℕ) + 256 - i, by omega⟩)| = |b (k - i)| := by
      by_cases h : (i : ℕ) ≤ (k : ℕ)
      · rw [dif_pos h]
        have harg : (k - i : Fin 256) = (⟨(k : ℕ) - (i : ℕ), by omega⟩ : Fin 256) := by
          apply Fin.ext
          rw [fin_sub_val]
          have hk := k.isLt
          have hi := i.isLt
          show (256 - i.val + k.val) % 256 = k.val - i.val
          omega
        rw [harg]
      · rw [dif_neg h, abs_neg]
        have harg : (k - i : Fin 256) = (⟨(k : ℕ) + 256 - (i : ℕ), by omega⟩ : Fin 256) := by
          apply Fin.ext
          rw [fin_sub_val]
          have hk := k.isLt
          have hi := i.isLt
          show (256 - i.val + k.val) % 256 = k.val + 256 - i.val
          omega
        rw [harg]
    rw [hD]
    exact mul_le_mul_of_nonneg_right (ha i) (abs_nonneg _)
  simp only [intNcMul]
  refine le_trans (Finset.abs_sum_le_sum_abs _ _) ?_
  refine le_trans (Finset.sum_le_sum fun i _ => habs i) ?_
  rw [← Finset.mul_sum]
  have hre : ∑ i : Fin 256, |b (k - i)| = ∑ j : Fin 256, |b j| := by
    rw [← Equiv.sum_comp (Equiv.subLeft k) fun j => |b j|]
    simp only [Equiv.subLeft_apply]
  rw [hre]
  exact mul_le_mul_of_nonneg_left hb hη

lemma conv_smod_bound (s2v ch : Fin 256 → ℤ) (η τ β : ℤ)
    (hs2v : ∀ c, |s2v c| ≤ η) (hchv : (∑ c : Fin 256, |ch c|) ≤ τ)
    (hβ : η * τ ≤ β) (hβQ : β ≤ 261888) (c : Fin 256) :
    |smod ((inttMat (pMul (nttMat (castZ s2v)) (nttMat (castZ ch))) c).val : ℤ)| ≤ β := by
  rw [inttMat_pMul_castZ]
  have h1 : ((castZ (intNcMul s2v ch) c).val : ℤ) = mod (intNcMul s2v ch c) :=
    val_cast_eq_mod _
  rw [h1, smod_mod]
  have h2 := intNcMul_abs_le s2v ch η τ hs2v hchv c
  have h3 := le_trans h2 hβ
  have h4 := abs_le.mp h3
  rw [smod_small _ (by norm_num [Q]; omega) (by norm_num [Q]; omega)]
  exact h3

end ConvolutionLemmas

section VerifyAlgebraLemmas

lemma mul_sum_mul_sub (F : ZMod Qn) (g p q : Fin 256 → ZMod Qn) :
    F * ∑ i : Fin 256, g i * (p i - q i)
      = F * (∑ i : Fin 256, g i * p i) - F * ∑ i : Fin 256, g i * q i := by
  rw [sum_mul_sub]
  ring

lemma inttMat_sub (p q : PolyR) :
    inttMat (fun c => p c - q c) = fun c => inttMat p c - inttMat q c := by
  funext t
  exact mul_sum_mul_sub FQ
    (fun i => zetaQ ^ (-(((2 * brv i.val + 1) * t.val : ℕ) : ℤ))) p q

lemma nttMat_T1 (K L : ℕ) (Ahat : Fin K → Fin L → PolyR)
    (s1 : Fin L → Fin 256 → ℤ) (s2 : Fin K → Fin 256 → ℤ) (i : Fin K) :
    nttMat (castZ (fun c => 2 ^ Dbits * keygenT1 K L Ahat s1 s2 i c))
      = fun c => ((∑ j, pMul (Ahat i j) (nttMat (castZ (s1 j)))) c
          + nttMat (castZ (s2 i)) c)
        - nttMat (castZ (keygenT0 K L Ahat s1 s2 i)) c := by
  have hsplit : castZ (fun c => 2 ^ Dbits * keygenT1 K L Ahat s1 s2 i c)
      = fun c => keygenT K L Ahat s1 s2 i c - castZ (keygenT0 K L Ahat s1 s2 i) c := by
    funext c
    show ((2 ^ Dbits * keygenT1 K L Ahat s1 s2 i c : ℤ) : ZMod Qn) = _
    have hre := power2Round_recon (pVal (keygenT K L Ahat s1 s2 i) c)
    have hm2 : mod (pVal (keygenT K L Ahat s1 s2 i) c)
        = pVal (keygenT K L Ahat s1 s2 i) c := by
      simp only [mod]
      exact Int.emod_eq_of_lt (pval_nonneg _) (pval_lt_Q _)
    have h2 : (2 ^ Dbits * keygenT1 K L Ahat s1 s2 i c : ℤ)
        = pVal (keygenT K L Ahat s1 s2 i) c - keygenT0 K L Ahat s1 s2 i c := by
      have h1 : keygenT1 K L Ahat s1 s2 i c
          = (Power2Round (pVal (keygenT K L Ahat s1 s2 i) c)).1 := rfl
      have h0 : keygenT0 K L Ahat s1 s2 i c
          = (Power2Round (pVal (keygenT K L Ahat s1 s2 i) c)).2 := rfl
      rw [h1, h0]
      rw [hm2] at hre
      linarith
    rw [h2, Int.cast_sub]
    have hfix : ((pVal (keygenT K L Ahat s1 s2 i) c : ℤ) : ZMod Qn)
        = keygenT K L Ahat s1 s2 i c := intCast_val_cast _
    rw [hfix]
    rfl
  rw [hsplit, nttMat_sub]
  have hT : nttMat (keygenT K L Ahat s1 s2 i)
      = fun c => (∑ j, pMul (Ahat i j) (nttMat (castZ (s1 j)))) c
          + nttMat (castZ (s2 i)) c := by
    have hk : keygenT K L Ahat s1 s2 i
        = fun c => inttMat (∑ j, pMul (Ahat i j) (nttMat (castZ (s1 j)))) c
            + castZ (s2 i) c := rfl
    rw [hk, nttMat_add, nttMat_inttMat]
  rw [hT]

lemma wA_decomp (K L : ℕ) (Ahat : Fin K → Fin L → PolyR)
    (s1hat : Fin L → PolyR) (s2hat t0hat : Fin K → PolyR)
    (T1p chat : PolyR) (y : Fin L → PolyR) (i : Fin K)
    (hT1 : nttMat T1p
      = fun c => ((∑ j, pMul (Ahat i j) (s1hat j)) c + s2hat i c) - t0hat i c) :
    inttMat (fun c =>
        (∑ j, pMul (Ahat i j)
            (nttMat (fun c2 => inttMat (pMul (s1hat j) chat) c2 + y j c2))) c
          - pMul (nttMat T1p) chat c)
      = fun c => inttMat (∑ j, pMul (Ahat i j) (nttMat (y j))) c
          - inttMat (pMul (s2hat i) chat) c
          + inttMat (pMul (t0hat i) chat) c := by
  have hz : ∀ j, nttMat (fun c2 => inttMat (pMul (s1hat j) chat) c2 + y j c2)
      = fun c => pMul (s1hat j) chat c + nttMat (y j) c := by
    intro j
    rw [nttMat_add, nttMat_inttMat]
  have hins : (fun c =>
        (∑ j, pMul (Ahat i j)
            (nttMat (fun c2 => inttMat (pMul (s1hat j) chat) c2 + y j c2))) c
          - pMul (nttMat T1p) chat c)
      = fun c => ((∑ j, pMul (Ahat i j) (nttMat (y j))) c - pMul (s2hat i) chat c)
          + pMul (t0hat i) chat c := by
    funext c
    simp only [Finset.sum_apply, pMul, hz, hT1]
    have hsplit2 : ∑ j : Fin L, Ahat i j c * (s1hat j c * chat c + nttMat (y j) c)
        = (∑ j : Fin L, Ahat i j c * (s1hat j c * chat c))
          + ∑ j : Fin L, Ahat i j c * nttMat (y j) c := by
      rw [← Finset.sum_add_distrib]
      exact Finset.sum_congr rfl fun j _ => by ring
    have hsplit3 : (∑ j : Fin L, Ahat i j c * s1hat j c) * chat c
        = ∑ j : Fin L, Ahat i j c * (s1hat j c * chat c) := by
      rw [Finset.sum_mul]
      exact Finset.sum_congr rfl fun j _ => by ring
    rw [hsplit2, sub_mul, add_mul, hsplit3]
    ring
  rw [hins, inttMat_add, inttMat_sub]

end VerifyAlgebraLemmas

section SignLoopLemmas

lemma signMainLoop_allreject {σ : Type} (L : ℕ) : ∀ fuel start,
    signMainLoop (fun _ => (none : Option σ)) L fuel start = none := by
  intro fuel
  induction fuel with
  | zero => intro start; rfl
  | succ f ih =>
    intro start
    simp only [signMainLoop]
    exact ih (start + L)

lemma signMainLoop_some {σ : Type} (attempt : ℕ → Option σ) (L : ℕ) : ∀ fuel start s,
    signMainLoop attempt L fuel start = some s → ∃ k, attempt k = some s := by
  intro fuel
  induction fuel with
  | zero =>
    intro start s h
    simp [signMainLoop] at h
  | succ f ih =>
    intro start s h
    cases hA : attempt start with
    | some s2 =>
      simp only [signMainLoop, hA] at h
      exact ⟨start, by rw [hA, h]⟩
    | none =>
      simp only [signMainLoop, hA] at h
      exact ih (start + L) s h

lemma thresholdSignLoop_err {σ : Type} (attemptSig : ℕ → Option σ) : ∀ r a,
    (∀ i, i < r → attemptSig (a + i) = none) →
    thresholdSignLoop attemptSig r a
      = .error "Failed to produce valid threshold signature after 500 attempts" := by
  intro r
  induction r with
  | zero => intro a _; rfl
  | succ m ih =>
    intro a h
    have h0 := h 0 (by omega)
    rw [Nat.add_zero] at h0
    simp only [thresholdSignLoop, h0]
    apply ih
    intro i hi
    have hx := h (i + 1) (by omega)
    rwa [show a + (i + 1) = a + 1 + i from by omega] at hx

lemma thresholdSignLoop_ok {σ : Type} (attemptSig : ℕ → Option σ) : ∀ r a s,
    thresholdSignLoop attemptSig r a = .ok s →
    ∃ i, i < r ∧ attemptSig (a + i) = some s := by
  intro r
  induction r with
  | zero =>
    intro a s h
    simp [thresholdSignLoop] at h
  | succ m ih =>
    intro a s h
    cases hA : attemptSig a with
    | some s2 =>
      simp only [thresholdSignLoop, hA, Except.ok.injEq] at h
      subst h
      exact ⟨0, by omega, by rw [Nat.add_zero]; exact hA⟩
    | none =>
      simp only [thresholdSignLoop, hA] at h
      obtain ⟨i, hi, hs⟩ := ih (a + 1) s h
      exact ⟨i + 1, by omega, by rwa [show a + (i + 1) = a + 1 + i from by omega]⟩

end SignLoopLemmas

/-- C2 counterexample: the baseline `internal.sign` rejection loop has no
500-attempt cap and no failure path: with every iteration rejecting, the
501st observed iteration has still produced neither a signature nor an
error — the loop just keeps running, where the claim says the bound of 500
is reached and a hard failure is raised. -/
theorem claim_C2_counterexample :
    signMainLoop (fun _ => (none : Option (List ℕ))) 4 501 0 = none :=
  signMainLoop_allreject 4 501 0

/-- C2 amended: the baseline `internal.sign` rejection loop
(`main_loop: for (let kappa = 0; ; )` in `ml-dsa.ts`) is unbounded — it
returns only when an iteration passes every norm check, and with all
iterations rejecting it runs forever without raising any error; the
500-attempt cap with a hard failure belongs to the threshold scheme:
`ThresholdMLDSA.sign` returns the first successful attempt's signature
(some attempt index `< 500`) and throws
`Failed to produce valid threshold signature after 500 attempts` when all
500 attempts fail. -/
theorem claim_C2_signBound {σ : Type} (attemptSig : ℕ → Option σ) (L fuel start : ℕ) :
    (signMainLoop (fun _ => (none : Option σ)) L fuel start = none) ∧
    ((∀ a, a < 500 → attemptSig a = none) →
      thresholdSign attemptSig
        = .error "Failed to produce valid threshold signature after 500 attempts") ∧
    (∀ s, thresholdSign attemptSig = .ok s → ∃ a, a < 500 ∧ attemptSig a = some s) := by
  refine ⟨signMainLoop_allreject L fuel start, ?_, ?_⟩
  · intro h
    exact thresholdSignLoop_err attemptSig 500 0 (fun i hi => by
      rw [Nat.zero_add]
      exact h i hi)
  · intro s h
    obtain ⟨i, hi, hs⟩ := thresholdSignLoop_ok attemptSig 500 0 s h
    rw [Nat.zero_add] at hs
    exact ⟨i, hi, hs⟩

/-- C2 witness: with every threshold attempt failing, `ThresholdMLDSA.sign`
throws the exact 500-attempt failure message. -/
theorem claim_C2_signBound_witness :
    thresholdSign (fun _ => (none : Option ℕ))
      = .error "Failed to produce valid threshold signature after 500 attempts" :=
  (claim_C2_signBound (fun _ => (none : Option ℕ)) 4 7 0).2.1 (fun _ _ => rfl)

section FrameLemmas

lemma execWrites_frame : ∀ (ws : List (Buf × List ℤ)) (heap : Buf → List ℤ) (b : Buf),
    b ∉ ws.map Prod.fst → execWrites heap ws b = heap b := by
  intro ws
  induction ws with
  | nil => intro heap b _; rfl
  | cons w ws ih =>
    intro heap b hb
    simp only [List.map_cons, List.mem_cons] at hb
    push_neg at hb
    show execWrites (fun x => if x = w.1 then w.2 else heap x) ws b = heap b
    rw [ih _ b hb.2]
    simp [hb.1]

lemma signTrace_targets (vals : ℕ → List ℤ) : Buf.sk ∉ (signTrace vals).map Prod.fst := by
  unfold signTrace
  simp [List.mem_append, List.mem_map]

end FrameLemmas

/-- C9: `internal.sign` leaves the caller's `secretKey` bytes unchanged:
every write of the call targets a buffer allocated inside the call (the
decoded `s1`/`s2`/`t0` copies, the matrix and loop scratch buffers and the
final `cleanBytes` zeroing), never the secret key or its `rho`/`_K`/`tr`
subarray views, so after executing the whole write trace the heap holds
the same bytes for the secret key as before. -/
theorem claim_C9_signFrame (heap : Buf → List ℤ) (vals : ℕ → List ℤ) :
    execWrites heap (signTrace vals) Buf.sk = heap Buf.sk :=
  execWrites_frame (signTrace vals) heap Buf.sk (signTrace_targets vals)

/-- C3 counterexample: a public key of the wrong length (here the empty
byte array against ML-DSA-44's expected 1312) makes `verify` throw from
`publicCoder.decode` instead of returning `false`, refuting the claim that
a malformed public-key length yields `false` rather than a throw.
The remaining inputs are arbitrary concrete values. -/
theorem claim_C3_counterexample :
    verifyFlow 1312 2420 2336 80 4 [] [] [] (fun _ => false) (fun _ => false) false
      = .error "publicKey: wrong length 0" := rfl

/-- C3 amended: `verify` throws on a wrong public-key length (fatal input
validation, from `publicCoder.decode`); once the public key has the right
length it never throws: a wrong signature length returns `false`, a
hint-decode violation returns `false`, and every remaining path returns a
boolean. -/
theorem claim_C3_verifyBehavior (pkBytesLen sigBytesLen cTildeZBytes OMEGA K : ℕ)
    (publicKey sig : List ℕ) (z : List (List ℤ))
    (chk1 chk2 : List (List ℤ) → Bool) (eqB : Bool) :
    (publicKey.length ≠ pkBytesLen →
      verifyFlow pkBytesLen sigBytesLen cTildeZBytes OMEGA K publicKey sig z chk1 chk2 eqB
        = .error ("publicKey: wrong length " ++ toString publicKey.length)) ∧
    (publicKey.length = pkBytesLen → sig.length ≠ sigBytesLen →
      verifyFlow pkBytesLen sigBytesLen cTildeZBytes OMEGA K publicKey sig z chk1 chk2 eqB
        = .ok false) ∧
    (publicKey.length = pkBytesLen → sig.length = sigBytesLen →
      hintDecode OMEGA K (sig.drop cTildeZBytes) = none →
      verifyFlow pkBytesLen sigBytesLen cTildeZBytes OMEGA K publicKey sig z chk1 chk2 eqB
        = .ok false) ∧
    (publicKey.length = pkBytesLen →
      ∃ b, verifyFlow pkBytesLen sigBytesLen cTildeZBytes OMEGA K publicKey sig z chk1 chk2 eqB
        = .ok b) := by
  refine ⟨?_, ?_, ?_, ?_⟩
  · intro h
    unfold verifyFlow
    rw [if_pos h]
  · intro h1 h2
    unfold verifyFlow
    rw [if_neg (not_ne_iff.mpr h1), if_pos h2]
  · intro h1 h2 h3
    unfold verifyFlow
    rw [if_neg (not_ne_iff.mpr h1), if_neg (not_ne_iff.mpr h2), h3]
  · intro h1
    unfold verifyFlow
    rw [if_neg (not_ne_iff.mpr h1)]
    by_cases h2 : sig.length ≠ sigBytesLen
    · rw [if_pos h2]
      exact ⟨false, rfl⟩
    · rw [if_neg h2]
      cases hh : hintDecode OMEGA K (sig.drop cTildeZBytes) with
      | none => exact ⟨false, rfl⟩
      | some h =>
        dsimp only
        by_cases hc1 : chk1 z
        · rw [if_pos hc1]
          exact ⟨false, rfl⟩
        · rw [if_neg hc1]
          by_cases hs : h.any (fun t => (OMEGA : ℤ) < t.foldl (fun acc i => acc + i) 0)
          · rw [if_pos hs]
            exact ⟨false, rfl⟩
          · rw [if_neg hs]
            by_cases hc2 : chk2 z
            · rw [if_pos hc2]
              exact ⟨false, rfl⟩
            · rw [if_neg hc2]
              exact ⟨eqB, rfl⟩

/-- C3 witness: with a well-formed public-key length and a wrong signature
length, `verify` returns `false` (it does not throw). -/
theorem claim_C3_verifyBehavior_witness :
    verifyFlow 2 3 0 1 1 [9, 9] [] [] (fun _ => false) (fun _ => false) true
      = .ok false :=
  (claim_C3_verifyBehavior 2 3 0 1 1 [9, 9] [] [] (fun _ => false) (fun _ => false)
    true).2.1 rfl (by decide)

section Round3Lemmas

lemma lor_eq_zero (a b : ℕ) : a ||| b = 0 ↔ a = 0 ∧ b = 0 := by
  constructor
  · intro h
    have ht : ∀ i, a.testBit i = false ∧ b.testBit i = false := by
      intro i
      have h2 := congrArg (fun x => Nat.testBit x i) h
      simp only [Nat.testBit_lor, Nat.zero_testBit, Bool.or_eq_false_iff] at h2
      exact h2
    constructor
    · apply Nat.eq_of_testBit_eq
      intro i
      simp [(ht i).1]
    · apply Nat.eq_of_testBit_eq
      intro i
      simp [(ht i).2]
  · rintro ⟨rfl, rfl⟩
    rfl

lemma foldl_lor_eq_zero : ∀ (l : List ℕ) (f : ℕ → ℕ) (acc : ℕ),
    l.foldl (fun a x => a ||| f x) acc = 0 ↔ acc = 0 ∧ ∀ x ∈ l, f x = 0 := by
  intro l f
  induction l with
  | nil => intro acc; simp
  | cons x l ih =>
    intro acc
    rw [List.foldl_cons, ih (acc ||| f x), lor_eq_zero]
    constructor
    · rintro ⟨⟨h1, h2⟩, h3⟩
      refine ⟨h1, fun y hy => ?_⟩
      rcases List.mem_cons.mp hy with rfl | hy2
      · exact h2
      · exact h3 y hy2
    · rintro ⟨h1, h2⟩
      exact ⟨⟨h1, h2 x (List.mem_cons_self x l)⟩, fun y hy => h2 y (List.mem_cons_of_mem x hy)⟩

lemma xorFold_eq_zero_iff (e h : List ℕ) :
    xorFold e h = 0 ↔ ∀ j, j < e.length → e.getD j 0 = h.getD j 0 := by
  unfold xorFold
  rw [foldl_lor_eq_zero]
  constructor
  · rintro ⟨_, h2⟩ j hj
    exact Nat.xor_eq_zero.mp (h2 j (List.mem_range.mpr hj))
  · intro hall
    exact ⟨rfl, fun j hj => Nat.xor_eq_zero.mpr (hall j (List.mem_range.mp hj))⟩

lemma round3CheckLoop_ok (H : List ℕ → List ℕ) (tr : List ℕ) (ids : List ℕ)
    (hashes : List (List ℕ)) : ∀ (cs : List (List ℕ)) (i0 : ℕ),
    (∀ k, k < cs.length →
      xorFold (hashCommitment H tr (ids.getD (i0 + k) 0) (cs.getD k []))
        (hashes.getD (i0 + k) []) = 0) →
    round3CheckLoop H tr ids hashes cs i0 = .ok () := by
  intro cs
  induction cs with
  | nil => intro i0 _; rfl
  | cons c cs ih =>
    intro i0 h
    have h0 := h 0 (by simp)
    simp only [Nat.add_zero, List.getD_cons_zero] at h0
    simp only [round3CheckLoop]
    rw [if_neg (not_ne_iff.mpr h0)]
    apply ih (i0 + 1)
    intro k hk
    have hx := h (k + 1) (by simp only [List.length_cons]; omega)
    rwa [show i0 + (k + 1) = i0 + 1 + k from by omega, List.getD_cons_succ] at hx

lemma round3CheckLoop_err (H : List ℕ → List ℕ) (tr : List ℕ) (ids : List ℕ)
    (hashes : List (List ℕ)) : ∀ (cs : List (List ℕ)) (i0 k : ℕ),
    k < cs.length →
    (∀ k2, k2 < k →
      xorFold (hashCommitment H tr (ids.getD (i0 + k2) 0) (cs.getD k2 []))
        (hashes.getD (i0 + k2) []) = 0) →
    xorFold (hashCommitment H tr (ids.getD (i0 + k) 0) (cs.getD k []))
      (hashes.getD (i0 + k) []) ≠ 0 →
    round3CheckLoop H tr ids hashes cs i0
      = .error ("Commitment hash mismatch for party " ++ toString (ids.getD (i0 + k) 0)) := by
  intro cs
  induction cs with
  | nil =>
    intro i0 k hk
    simp at hk
  | cons c cs ih =>
    intro i0 k hk hprev hbad
    cases k with
    | zero =>
      simp only [Nat.add_zero, List.getD_cons_zero] at hbad
      simp only [Nat.add_zero]
      simp only [round3CheckLoop]
      rw [if_pos hbad]
    | succ m =>
      have h0 := hprev 0 (by omega)
      simp only [Nat.add_zero, List.getD_cons_zero] at h0
      simp only [round3CheckLoop]
      rw [if_neg (not_ne_iff.mpr h0)]
      have hrec := ih (i0 + 1) m (by simp only [List.length_cons] at hk; omega)
        (fun k2 hk2 => by
          have hx := hprev (k2 + 1) (by omega)
          rwa [show i0 + (k2 + 1) = i0 + 1 + k2 from by omega, List.getD_cons_succ] at hx)
        (by
          rw [show i0 + (m + 1) = i0 + 1 + m from by omega, List.getD_cons_succ] at hbad
          exact hbad)
      rw [hrec, show i0 + (m + 1) = i0 + 1 + m from by omega]

end Round3Lemmas

/-- C7: `round3` recomputes `SHAKE256(tr ∥ byte(partyId_i) ∥ commitment_i, 32)`
for every peer `i` in the active-party list stored in round 2, compares it
byte-for-byte to the hash stored for that peer, and throws an error naming the
offending party on the first mismatch (producing no response); when every
peer's hash matches it proceeds to produce the packed partial response. -/
theorem claim_C7_round3 (H : List ℕ → List ℕ) (tr : List ℕ)
    (commitments : List (List ℕ)) (ids : List ℕ) (hashes : List (List ℕ))
    (respond : List (List ℕ) → List ℕ)
    (hlen : commitments.length = ids.length) :
    ((∀ i, i < commitments.length → ∀ j,
        j < (hashCommitment H tr (ids.getD i 0) (commitments.getD i [])).length →
        (hashCommitment H tr (ids.getD i 0) (commitments.getD i [])).getD j 0
          = (hashes.getD i []).getD j 0) →
      round3 H tr commitments ids hashes respond = .ok (respond commitments)) ∧
    (∀ i, i < commitments.length →
      (∀ i2, i2 < i → ∀ j,
        j < (hashCommitment H tr (ids.getD i2 0) (commitments.getD i2 [])).length →
        (hashCommitment H tr (ids.getD i2 0) (commitments.getD i2 [])).getD j 0
          = (hashes.getD i2 []).getD j 0) →
      ¬ (∀ j, j < (hashCommitment H tr (ids.getD i 0) (commitments.getD i [])).length →
        (hashCommitment H tr (ids.getD i 0) (commitments.getD i [])).getD j 0
          = (hashes.getD i []).getD j 0) →
      round3 H tr commitments ids hashes respond
        = .error ("Commitment hash mismatch for party " ++ toString (ids.getD i 0))) := by
  constructor
  · intro hall
    unfold round3
    rw [if_neg (not_ne_iff.mpr hlen),
      round3CheckLoop_ok H tr ids hashes commitments 0 (fun k hk => by
        rw [Nat.zero_add]
        exact (xorFold_eq_zero_iff _ _).mpr (hall k hk))]
  · intro i hi hprev hbad
    unfold round3
    rw [if_neg (not_ne_iff.mpr hlen),
      round3CheckLoop_err H tr ids hashes commitments 0 i hi
        (fun k2 hk2 => by
          rw [Nat.zero_add]
          exact (xorFold_eq_zero_iff _ _).mpr (hprev k2 hk2))
        (by
          rw [Nat.zero_add]
          intro hz
          exact hbad ((xorFold_eq_zero_iff _ _).mp hz)),
      Nat.zero_add]

/-- C7 witness: a single peer whose recomputed hash matches the stored
hash, so `round3` returns the packed response. -/
theorem claim_C7_round3_witness :
    round3 (fun _ => [7]) [] [[1]] [5] [[7]] (fun _ => [42]) = .ok [42] :=
  (claim_C7_round3 (fun _ => [7]) [] [[1]] [5] [[7]] (fun _ => [42]) rfl).1
    (by
      intro i hi j hj
      obtain rfl : i = 0 := by
        have h1 : ([[1]] : List (List ℕ)).length = 1 := rfl
        omega
      obtain rfl : j = 0 := by
        have h1 : (hashCommitment (fun _ => [7]) [] (([5] : List ℕ).getD 0 0)
            (([[1]] : List (List ℕ)).getD 0 [])).length = 1 := rfl
        omega
      rfl)

/-- C10: for every `K_iter ≥ 1`, every `dim ≥ 1`, and every `K_iter × dim`
array of 256-coefficient polynomials whose coefficients all lie in `[0, Q)`,
`unpackPolys (packPolys polys dim K_iter) dim K_iter` returns the original
polynomials coefficient-for-coefficient: the 23-bit little-endian commitment
packing of `threshold-ml-dsa.ts` round-trips exactly on its valid domain. -/
theorem claim_C10_packUnpack (polys : List (List (List ℤ))) (dim K_iter : ℕ)
    (hKpos : 1 ≤ K_iter) (hdpos : 1 ≤ dim)
    (hK : polys.length = K_iter)
    (hdim : ∀ row ∈ polys, row.length = dim)
    (hplen : ∀ row ∈ polys, ∀ p ∈ row, p.length = 256)
    (hcoeff : ∀ row ∈ polys, ∀ p ∈ row, ∀ c ∈ p, 0 ≤ c ∧ c < Q) :
    unpackPolys (packPolys polys dim K_iter) dim K_iter = .ok polys := by
  set L := (List.range K_iter).map
    (fun iter => (List.range dim).map
      (fun jj => polyPackW ((polys.getD iter []).getD jj []) 0 0)) with hL
  have hLlen : L.length = K_iter := by rw [hL]; simp
  have hLdim : ∀ x ∈ L, x.length = dim := by
    intro x hx
    rw [hL, List.mem_map] at hx
    obtain ⟨i, _, rfl⟩ := hx
    simp
  have hpolyfacts : ∀ i jj, i < K_iter → jj < dim →
      ((polys.getD i []).getD jj []).length = 256 ∧
      ∀ c ∈ (polys.getD i []).getD jj [], 0 ≤ c ∧ c < (Qn : ℤ) := by
    intro i jj hi hjj
    have hrowmem : polys.getD i [] ∈ polys := by
      rw [List.getD_eq_getElem polys [] (by omega)]
      exact List.getElem_mem _
    have hpmem : (polys.getD i []).getD jj [] ∈ polys.getD i [] := by
      rw [List.getD_eq_getElem (polys.getD i []) [] (by rw [hdim _ hrowmem]; omega)]
      exact List.getElem_mem _
    refine ⟨hplen _ hrowmem _ hpmem, fun c hc => ?_⟩
    have hQQ : (Qn : ℤ) = Q := by norm_num [Qn, Q]
    rw [hQQ]
    exact hcoeff _ hrowmem _ hpmem c hc
  have hblockeq : ∀ i jj, i < K_iter → jj < dim →
      polyPackW ((polys.getD i []).getD jj []) 0 0
      = bytesLE POLY_Q_SIZE (natOfCoeffs ((polys.getD i []).getD jj [])) := by
    intro i jj hi hjj
    obtain ⟨hl, _⟩ := hpolyfacts i jj hi hjj
    rw [polyPackW_spec ((polys.getD i []).getD jj []) 0 0 (by norm_num) (by norm_num)
      (by rw [hl]), hl]
    norm_num [POLY_Q_SIZE]
  have hblocklen : ∀ b ∈ L.flatten, b.length = POLY_Q_SIZE := by
    intro b hb
    rw [List.mem_flatten] at hb
    obtain ⟨x, hx, hbx⟩ := hb
    rw [hL, List.mem_map] at hx
    obtain ⟨i, hi, rfl⟩ := hx
    rw [List.mem_map] at hbx
    obtain ⟨jj, hjj, rfl⟩ := hbx
    rw [List.mem_range] at hi hjj
    rw [hblockeq i jj hi hjj]
    exact bytesLE_length _ _
  have hpackeq : packPolys polys dim K_iter = L.flatten.flatten := by
    rw [← flatten_map_flatten, hL, List.map_map]
    rfl
  have hbuflen : L.flatten.flatten.length = K_iter * dim * POLY_Q_SIZE := by
    rw [flatten_length_uniform L.flatten POLY_Q_SIZE hblocklen,
      flatten_length_uniform L dim hLdim, hLlen]
  have hslice : ∀ i jj, i < K_iter → jj < dim →
      sliceAt L.flatten.flatten (i * dim + jj)
      = bytesLE POLY_Q_SIZE (natOfCoeffs ((polys.getD i []).getD jj [])) := by
    intro i jj hi hjj
    have hidx : i * dim + jj < L.flatten.length := by
      rw [flatten_length_uniform L dim hLdim, hLlen]
      calc i * dim + jj < i * dim + dim := by omega
        _ = (i + 1) * dim := by ring
        _ ≤ K_iter * dim := Nat.mul_le_mul_right dim (by omega)
    rw [flatten_sliceAt L.flatten (i * dim + jj) hblocklen hidx,
      flatten_getD_uniform [] L dim i jj hLdim (by omega) hjj,
      hL, getD_map_range _ _ _ _ hi, getD_map_range _ _ _ _ hjj,
      hblockeq i jj hi hjj]
  have hunpack : ∀ i jj, i < K_iter → jj < dim →
      polyUnpackW (sliceAt L.flatten.flatten (i * dim + jj))
      = .ok ((polys.getD i []).getD jj []) := by
    intro i jj hi hjj
    obtain ⟨hl, hb⟩ := hpolyfacts i jj hi hjj
    rw [hslice i jj hi hjj]
    exact polyUnpackW_bytesLE _ hl hb
  have hrow : ∀ i, i < K_iter →
      unpackRow L.flatten.flatten (i * dim) dim = .ok (polys.getD i []) := by
    intro i hi
    have hrowmem : polys.getD i [] ∈ polys := by
      rw [List.getD_eq_getElem polys [] (by omega)]
      exact List.getElem_mem _
    have hrl : (polys.getD i []).length = dim := hdim _ hrowmem
    have h1 := unpackRow_ok L.flatten.flatten (polys.getD i []) (i * dim)
      (fun k hk => hunpack i k hi (by omega))
    rwa [hrl] at h1
  have hiters : unpackIters L.flatten.flatten dim 0 K_iter = .ok polys := by
    rw [← hK]
    apply unpackIters_ok
    intro i hi
    rw [hK] at hi
    have hx := hrow i hi
    rwa [show i * dim = 0 + i * dim from by omega] at hx
  rw [hpackeq]
  unfold unpackPolys
  rw [if_neg (not_ne_iff.mpr hbuflen)]
  exact hiters

/-- C10 witness: the round-trip theorem applied to the concrete `1 × 1`
array holding the all-zero polynomial. -/
theorem claim_C10_packUnpack_witness :
    unpackPolys (packPolys [[List.replicate 256 (0 : ℤ)]] 1 1) 1 1
      = .ok [[List.replicate 256 (0 : ℤ)]] :=
  claim_C10_packUnpack [[List.replicate 256 (0 : ℤ)]] 1 1 (le_refl 1) (le_refl 1) rfl
    (by
      intro row hr
      rw [List.mem_singleton] at hr
      subst hr
      rfl)
    (by
      intro row hr p hp
      rw [List.mem_singleton] at hr
      subst hr
      rw [List.mem_singleton] at hp
      subst hp
      exact List.length_replicate 256 0)
    (by
      intro row hr p hp c hc
      rw [List.mem_singleton] at hr
      subst hr
      rw [List.mem_singleton] at hp
      subst hp
      rw [List.eq_of_mem_replicate hc]
      norm_num [Q])

-- ==================== Claim C1: verify-sign round trip ====================

section VerifySignLemmas

lemma chknormR_false {p : PolyR} {B : ℤ} (h : ¬ (chknormR p B = true)) :
    ∀ c, |smod (pVal p c)| < B := by
  simp only [chknormR, decide_eq_true_eq] at h
  push_neg at h
  exact h

lemma chknormZ_false {p : Fin 256 → ℤ} {B : ℤ} (h : ¬ (chknormZ p B = true)) :
    ∀ c, |smod (p c)| < B := by
  simp only [chknormZ, decide_eq_true_eq] at h
  push_neg at h
  exact h

lemma wA_decomp_keygen (K L : ℕ) (Ahat : Fin K → Fin L → PolyR)
    (s1 : Fin L → Fin 256 → ℤ) (s2 : Fin K → Fin 256 → ℤ)
    (chat : PolyR) (y : Fin L → PolyR) (i : Fin K) :
    inttMat (fun c =>
        (∑ j, pMul (Ahat i j)
            (nttMat (fun c2 => inttMat (pMul (nttMat (castZ (s1 j))) chat) c2 + y j c2))) c
          - pMul (nttMat (castZ (fun c2 => 2 ^ Dbits * keygenT1 K L Ahat s1 s2 i c2))) chat c)
      = fun c => inttMat (∑ j, pMul (Ahat i j) (nttMat (y j))) c
          - inttMat (pMul (nttMat (castZ (s2 i))) chat) c
          + inttMat (pMul (nttMat (castZ (keygenT0 K L Ahat s1 s2 i))) chat) c :=
  wA_decomp K L Ahat (fun j => nttMat (castZ (s1 j))) (fun i => nttMat (castZ (s2 i)))
    (fun i => nttMat (castZ (keygenT0 K L Ahat s1 s2 i)))
    (castZ (fun c2 => 2 ^ Dbits * keygenT1 K L Ahat s1 s2 i c2)) chat y i
    (nttMat_T1 K L Ahat s1 s2 i)

set_option maxHeartbeats 1600000 in
set_option maxRecDepth 8000 in
lemma signAttempt_verify (K L : ℕ) (γ1 γ2 β η τ : ℤ) (ω : ℕ)
    (Ahat : Fin K → Fin L → PolyR)
    (s1 : Fin L → Fin 256 → ℤ) (s2 : Fin K → Fin 256 → ℤ)
    (mu : List ℕ) (Hc : List ℕ → (Fin K → Fin 256 → ℤ) → List ℕ)
    (challenge : List ℕ → Fin 256 → ℤ)
    (y : Fin L → PolyR) (σ : SigS K L)
    (hγ : γ2 = GAMMA2_1 ∨ γ2 = GAMMA2_2)
    (hβ0 : 0 ≤ β) (hβγ : β < γ2)
    (hs2 : ∀ i c, |s2 i c| ≤ η)
    (hch : ∀ ct, (∑ c : Fin 256, |challenge ct c|) ≤ τ)
    (hβτη : η * τ ≤ β)
    (hatt : signAttempt K L γ1 γ2 β ω Ahat
        (fun j => nttMat (castZ (s1 j))) (fun i => nttMat (castZ (s2 i)))
        (fun i => nttMat (castZ (keygenT0 K L Ahat s1 s2 i)))
        mu Hc challenge y = some σ) :
    verifyS K L γ1 γ2 β ω Ahat (keygenT1 K L Ahat s1 s2) mu Hc challenge σ = true := by
  simp only [signAttempt] at hatt
  split_ifs at hatt with hc1 hc2 hc3 hc4
  rw [Option.some.injEq] at hatt
  subst hatt
  have hγle := gamma2_le γ2 hγ
  have hβ26 : β ≤ 261888 := by omega
  simp only [verifyS]
  split_ifs with h1
  · obtain ⟨i, hi⟩ := h1
    refine absurd ?_ hc4
    exact lt_of_lt_of_le hi
      (Finset.single_le_sum
        (fun i' _ => Finset.sum_nonneg fun c _ => makeHint_nonneg _ _ _)
        (Finset.mem_univ i))
  rw [decide_eq_true_eq]
  congr 1
  funext i c
  rw [wA_decomp_keygen]
  have hsc := conv_smod_bound (s2 i)
    (challenge (Hc mu fun i c =>
      HighBits γ2 (pVal (inttMat (∑ x : Fin L, pMul (Ahat i x) (nttMat (y x)))) c)))
    η τ β (hs2 i) (hch _) hβτη hβ26 c
  have hr0 := chknormZ_false (fun hh => hc2 ⟨i, hh⟩) c
  simp only [pval_sub] at hr0
  have htc := chknormR_false (fun hh => hc3 ⟨i, hh⟩) c
  simp only [pVal] at htc ⊢
  simp only [pval_sub, pval_sub_add]
  exact (hint_coeff γ2 β hγ hβ0 hβγ _ _ _ (pval_nonneg _) (pval_lt_Q _) hsc hr0 htc).symm

lemma signMainLoop_one {σ : Type} (attempt : ℕ → Option σ) (L start : ℕ) (s : σ)
    (h : attempt start = some s) : signMainLoop attempt L 1 start = some s := by
  have h2 : signMainLoop attempt L (0 + 1) start = some s := by
    simp only [signMainLoop, h]
  exact h2

end VerifySignLemmas

/-- C1: for keys produced by `keygen` (the `t0`/`t1` split of
`t = NTT⁻¹(Â∘NTT(s1)) + s2`), whenever the `internal.sign` rejection loop
accepts and returns a signature, `internal.verify` accepts that signature:
the recomputed `w1' = UseHint(h, Â∘ẑ − NTT(2^D·t1)∘ĉ)` equals the signer's
`w1`, every verifier-side check passes, and the challenge hashes agree.
The secret ranges `‖s2‖∞ ≤ η` and challenge weight `Σ|c| ≤ τ` with
`τη ≤ β < γ2` are the parameter-set facts of the abstract samplers. -/
theorem claim_C1_verifySign (K L : ℕ) (γ1 γ2 β η τ : ℤ) (ω : ℕ)
    (Ahat : Fin K → Fin L → PolyR)
    (s1 : Fin L → Fin 256 → ℤ) (s2 : Fin K → Fin 256 → ℤ)
    (mu : List ℕ) (Hc : List ℕ → (Fin K → Fin 256 → ℤ) → List ℕ)
    (challenge : List ℕ → Fin 256 → ℤ)
    (y : ℕ → Fin L → PolyR) (fuel start : ℕ) (σ : SigS K L)
    (hγ : γ2 = GAMMA2_1 ∨ γ2 = GAMMA2_2)
    (hβ0 : 0 ≤ β) (hβγ : β < γ2)
    (hs2 : ∀ i c, |s2 i c| ≤ η)
    (hch : ∀ ct, (∑ c : Fin 256, |challenge ct c|) ≤ τ)
    (hβτη : η * τ ≤ β)
    (hsig : signMainLoop (fun κ => signAttempt K L γ1 γ2 β ω Ahat
        (fun j => nttMat (castZ (s1 j))) (fun i => nttMat (castZ (s2 i)))
        (fun i => nttMat (castZ (keygenT0 K L Ahat s1 s2 i)))
        mu Hc challenge (y κ)) L fuel start = some σ) :
    verifyS K L γ1 γ2 β ω Ahat (keygenT1 K L Ahat s1 s2) mu Hc challenge σ = true := by
  obtain ⟨κ, hatt⟩ := signMainLoop_some _ L fuel start σ hsig
  exact signAttempt_verify K L γ1 γ2 β η τ ω Ahat s1 s2 mu Hc challenge (y κ) σ
    hγ hβ0 hβγ hs2 hch hβτη hatt

set_option maxRecDepth 8000 in
/-- Witness for C1 at a concrete instance: the all-zero key and mask with
`K = L = 1`, `γ2 = GAMMA2_2`, `β = η = τ = 0`, `ω = 0`, `γ1 = 1`: the first
sign attempt accepts with the zero signature, and verify accepts it. -/
theorem claim_C1_verifySign_witness :
    signMainLoop
        (fun _ => signAttempt 1 1 1 GAMMA2_2 0 0 (fun _ _ => (0 : PolyR))
          (fun _ => nttMat (castZ (fun _ => (0 : ℤ))))
          (fun _ => nttMat (castZ (fun _ => (0 : ℤ))))
          (fun i => nttMat (castZ (keygenT0 1 1 (fun _ _ => (0 : PolyR))
            (fun _ _ => (0 : ℤ)) (fun _ _ => (0 : ℤ)) i)))
          [] (fun _ _ => ([] : List ℕ)) (fun _ _ => (0 : ℤ)) (fun _ => (0 : PolyR)))
        1 1 0
      = some ⟨[], fun _ _ => (0 : ZMod Qn), fun _ _ => (0 : ℤ)⟩
    ∧ verifyS 1 1 1 GAMMA2_2 0 0 (fun _ _ => (0 : PolyR))
        (keygenT1 1 1 (fun _ _ => (0 : PolyR)) (fun _ _ => (0 : ℤ)) (fun _ _ => (0 : ℤ)))
        [] (fun _ _ => ([] : List ℕ)) (fun _ _ => (0 : ℤ))
        ⟨[], fun _ _ => (0 : ZMod Qn), fun _ _ => (0 : ℤ)⟩ = true := by
  have hT0 : ∀ i : Fin 1, keygenT0 1 1 (fun _ _ => (0 : PolyR))
      (fun _ _ => (0 : ℤ)) (fun _ _ => (0 : ℤ)) i = fun _ => (0 : ℤ) := by
    intro i
    funext c
    show (Power2Round (pVal (keygenT 1 1 (fun _ _ => (0 : PolyR))
      (fun _ _ => (0 : ℤ)) (fun _ _ => (0 : ℤ)) i) c)).2 = 0
    have hk : keygenT 1 1 (fun _ _ => (0 : PolyR))
        (fun _ _ => (0 : ℤ)) (fun _ _ => (0 : ℤ)) i = (0 : PolyR) := by
      funext c2
      show inttMat (∑ _j : Fin 1, pMul (0 : PolyR) (nttMat (castZ (fun _ => (0 : ℤ))))) c2
          + castZ (fun _ => (0 : ℤ)) c2 = (0 : PolyR) c2
      rw [castZ_zero]
      simp only [pMul_zero_left, Finset.sum_const_zero, inttMat_zero, Pi.zero_apply, add_zero]
    rw [hk]
    have hp : pVal (0 : PolyR) c = 0 := by simp [pVal]
    rw [hp]
    decide
  have hHB : HighBits GAMMA2_2 0 = 0 := by decide
  have hLB : LowBits GAMMA2_2 0 = 0 := by decide
  have hMH : MakeHint GAMMA2_2 (mod 0) 0 = 0 := by decide
  have hCR1 : chknormR (fun _ => (0 : ZMod Qn)) 1 = false := by decide
  have hCR0 : chknormR (0 : PolyR) GAMMA2_2 = false := by decide
  have hCZ : chknormZ (fun _ => (0 : ℤ)) GAMMA2_2 = false := by decide
  have hatt0 : signAttempt 1 1 1 GAMMA2_2 0 0 (fun _ _ => (0 : PolyR))
      (fun _ => nttMat (castZ (fun _ => (0 : ℤ))))
      (fun _ => nttMat (castZ (fun _ => (0 : ℤ))))
      (fun i => nttMat (castZ (keygenT0 1 1 (fun _ _ => (0 : PolyR))
        (fun _ _ => (0 : ℤ)) (fun _ _ => (0 : ℤ)) i)))
      [] (fun _ _ => ([] : List ℕ)) (fun _ _ => (0 : ℤ)) (fun _ => (0 : PolyR))
      = some ⟨[], fun _ _ => (0 : ZMod Qn), fun _ _ => (0 : ℤ)⟩ := by
    simp only [signAttempt, hT0, castZ_zero, nttMat_zero, inttMat_zero, pMul_zero_left,
      pMul_zero_right, Finset.sum_const_zero, Pi.zero_apply, add_zero, zero_add, sub_zero,
      ZMod.val_zero, Nat.cast_zero, pVal, hHB, hLB, hMH, hCR1, hCR0, hCZ]
    simp
  have h1 := signMainLoop_one
    (fun _ => signAttempt 1 1 1 GAMMA2_2 0 0 (fun _ _ => (0 : PolyR))
      (fun _ => nttMat (castZ (fun _ => (0 : ℤ))))
      (fun _ => nttMat (castZ (fun _ => (0 : ℤ))))
      (fun i => nttMat (castZ (keygenT0 1 1 (fun _ _ => (0 : PolyR))
        (fun _ _ => (0 : ℤ)) (fun _ _ => (0 : ℤ)) i)))
      [] (fun _ _ => ([] : List ℕ)) (fun _ _ => (0 : ℤ)) (fun _ => (0 : PolyR)))
    1 0 ⟨[], fun _ _ => (0 : ZMod Qn), fun _ _ => (0 : ℤ)⟩ hatt0
  refine ⟨h1, ?_⟩
  exact claim_C1_verifySign 1 1 1 GAMMA2_2 0 0 0 0 (fun _ _ => (0 : PolyR))
    (fun _ _ => (0 : ℤ)) (fun _ _ => (0 : ℤ)) [] (fun _ _ => ([] : List ℕ))
    (fun _ _ => (0 : ℤ)) (fun _ _ => (0 : PolyR)) 1 0
    ⟨[], fun _ _ => (0 : ZMod Qn), fun _ _ => (0 : ℤ)⟩
    (Or.inr rfl) le_rfl (by decide) (fun i c => by simp) (fun ct => by simp)
    (by decide) h1

end NPQ
